import Mathlib

/-!
Verification of the AGV path-planning and scheduling module
(`src-python/agv-algorithm.py`) against its specification.

The Python source is shallowly embedded: pure functions become Lean
functions, in-place mutation becomes explicit state passing, a raised
exception becomes `none` (an `Option` result) or a tagged error, and the
unbounded `while` loops of the A* search and the batched move are driven
by an explicit fuel argument that is large enough for every run the
scheduler can produce (each loop iteration of the source either consumes a
frontier entry or marks a fresh AGV handled, so the chosen fuels bound the
source's iteration counts from above; exhausted fuel yields the same value
as an exhausted frontier / an unproductive pass).
-/

set_option maxHeartbeats 1600000

namespace AgvMonitor

/-- Direction enumeration of the source: RIGHT=0, UP=90, LEFT=180, DOWN=270. -/
inductive Direction where
  | RIGHT
  | UP
  | LEFT
  | DOWN
deriving DecidableEq, Repr

/-- `Direction.value`: the numeric angle of a direction. -/
def Direction.value : Direction → Int
  | .RIGHT => 0
  | .UP => 90
  | .LEFT => 180
  | .DOWN => 270

/-- Two-dimensional integer grid point (class `PointEx`). -/
structure PointEx where
  x : Int
  y : Int
deriving DecidableEq, Repr

def PointEx.left_neighbour (p : PointEx) : PointEx := ⟨p.x - 1, p.y⟩

def PointEx.right_neighbour (p : PointEx) : PointEx := ⟨p.x + 1, p.y⟩

def PointEx.up_neighbour (p : PointEx) : PointEx := ⟨p.x, p.y - 1⟩

def PointEx.down_neighbour (p : PointEx) : PointEx := ⟨p.x, p.y + 1⟩

/-- The four adjacent points, in the order of the source's `neighbours`. -/
def PointEx.neighbours (p : PointEx) : List PointEx :=
  [p.left_neighbour, p.right_neighbour, p.up_neighbour, p.down_neighbour]

/-- `PointEx.is_neighbour`: 4-adjacency test of the source. -/
def PointEx.is_neighbour (p q : PointEx) : Bool :=
  (p.x == q.x && (p.y == q.y + 1 || p.y == q.y - 1)) ||
  (p.y == q.y && (p.x == q.x + 1 || p.x == q.x - 1))

/-- `PointEx.get_pitch_to_neighbour`: direction of an adjacent point.
The source raises an exception when the target is not 4-adjacent; the
embedding returns `none` there. -/
def PointEx.get_pitch_to_neighbour (p q : PointEx) : Option Direction :=
  let dx := q.x - p.x
  let dy := q.y - p.y
  if dy = 0 then
    if dx > 0 then some .RIGHT
    else if dx < 0 then some .LEFT
    else none
  else if dx = 0 then
    if dy > 0 then some .UP
    else if dy < 0 then some .DOWN
    else none
  else none

/-- A path point together with the cumulative time needed to reach it. -/
structure PathTimePoint where
  position : PointEx
  time_cost : Int
deriving DecidableEq, Repr

namespace PathPlanning

def MOVE_COST : Int := 1

def TURN_COST : Int := 1

def GRID_SIZE : Int × Int := (21, 21)

/-- Manhattan distance. -/
def manhattan (p1 p2 : PointEx) : Int := |p1.x - p2.x| + |p1.y - p2.y|

/-- A frontier entry of the A* search: the tuple
`(priority, cost, current_pos, current_orientation, path)` of the source. -/
structure AStarNode where
  priority : Int
  cost : Int
  pos : PointEx
  orientation : Direction
  path : List PointEx
deriving DecidableEq, Repr

/-- An entry of `SimplePriorityQueue`: `(priority, insertion index, item)`. -/
abbrev PQEntry := Int × Nat × AStarNode

/-- Strict comparison of heap keys `(priority, insertion index)`. -/
def pqKeyLt (a b : Int × Nat) : Bool :=
  decide (a.1 < b.1) || (decide (a.1 = b.1) && decide (a.2 < b.2))

/-- Pop the entry with the least `(priority, insertion index)` key, as the
`heapq`-based `SimplePriorityQueue.dequeue` does (insertion indices are
unique, so this selection is exactly the heap order). -/
def dequeueMin : List PQEntry → Option (PQEntry × List PQEntry)
  | [] => none
  | e :: es =>
    match dequeueMin es with
    | none => some (e, [])
    | some (m, rest) =>
      if pqKeyLt (m.1, m.2.1) (e.1, e.2.1) then some (m, e :: rest) else some (e, es)

/-- The `(dx, dy, direction)` table of the source's `get_neighbors`. -/
def astar_directions : List (Int × Int × Direction) :=
  [(1, 0, .RIGHT), (-1, 0, .LEFT), (0, 1, .UP), (0, -1, .DOWN)]

/-- `get_neighbors` of `a_star_with_orientation`: in-bounds, non-obstacle
4-neighbours together with the move direction and its cost. -/
def get_neighbors (size : Int × Int) (obstacles : List PointEx)
    (pos : PointEx) (current_orientation : Direction) :
    List (PointEx × Direction × Int) :=
  astar_directions.filterMap fun dxy =>
    let nx := pos.x + dxy.1
    let ny := pos.y + dxy.2.1
    let direction := dxy.2.2
    if 1 ≤ nx ∧ nx ≤ size.1 ∧ 1 ≤ ny ∧ ny ≤ size.2 ∧ ¬ (PointEx.mk nx ny ∈ obstacles) then
      some (⟨nx, ny⟩, direction,
        MOVE_COST + (if direction ≠ current_orientation then TURN_COST else 0))
    else none

/-- Push every not-yet-visited neighbour expansion of `node` onto the
frontier, threading the insertion index. -/
def expandNode (size : Int × Int) (obstacles : List PointEx) (goal : PointEx)
    (node : AStarNode) (visited : List (PointEx × Direction))
    (frontier : List PQEntry) (idx : Nat) : List PQEntry × Nat :=
  (get_neighbors size obstacles node.pos node.orientation).foldl
    (fun acc nbr =>
      if (nbr.1, nbr.2.1) ∈ visited then acc
      else
        let new_cost := node.cost + nbr.2.2
        let priority := new_cost + manhattan nbr.1 goal
        (acc.1 ++ [(priority, acc.2,
            AStarNode.mk priority new_cost nbr.1 nbr.2.1 (node.path ++ [nbr.1]))],
         acc.2 + 1))
    (frontier, idx)

/-- The main A* loop.  `fuel` bounds the number of dequeues; it is chosen in
`a_star_full` above the total number of possible enqueues, so for the
source's runs the loop always ends by goal-pop or frontier exhaustion. -/
def aStarLoop (size : Int × Int) (goal : PointEx) (obstacles : List PointEx) :
    Nat → List PQEntry → Nat → List (PointEx × Direction) → Option AStarNode
  | 0, _, _, _ => none
  | fuel + 1, frontier, idx, visited =>
    match dequeueMin frontier with
    | none => none
    | some (e, rest) =>
      if e.2.2.pos = goal then some e.2.2
      else if (e.2.2.pos, e.2.2.orientation) ∈ visited then
        aStarLoop size goal obstacles fuel rest idx visited
      else
        let visited2 := visited ++ [(e.2.2.pos, e.2.2.orientation)]
        let fr := expandNode size obstacles goal e.2.2 visited2 rest idx
        aStarLoop size goal obstacles fuel fr.1 fr.2 visited2

/-- Fuel bound: at most `4 * (cells + 1)` states are ever enqueued, each at
most once per enqueue, and the initial entry adds one more. -/
def aStarFuel (size : Int × Int) : Nat :=
  (size.1.toNat * size.2.toNat + 2) * 20 + 20

/-- A* search returning the whole successful frontier entry (whose `path`
field is what the source returns and whose `cost` field is the accumulated
g-value). -/
def a_star_full (start goal : PointEx) (orientation : Direction)
    (obstacles : List PointEx) (grid_size : Option (Int × Int)) : Option AStarNode :=
  let size := grid_size.getD GRID_SIZE
  let h0 := manhattan start goal
  aStarLoop size goal obstacles (aStarFuel size)
    [(h0, 0, AStarNode.mk h0 0 start orientation [start])] 1 []

/-- `PathPlanning.a_star_with_orientation`: the path of the popped goal
entry, or `[]` when the frontier is exhausted. -/
def a_star_with_orientation (start goal : PointEx) (orientation : Direction)
    (obstacles : List PointEx) (grid_size : Option (Int × Int)) : List PointEx :=
  match a_star_full start goal orientation obstacles grid_size with
  | some node => node.path
  | none => []

/-- Tail worker of `calculate_path_timing`: walk the remaining points,
accumulating turn and move costs.  `none` when two consecutive points are
not 4-adjacent (the source raises there). -/
def calcTimingAux (prev : PointEx) (current_pitch : Direction) (current_time : Int) :
    List PointEx → Option (List PathTimePoint)
  | [] => some []
  | to_point :: rest => do
    let new_pitch ← prev.get_pitch_to_neighbour to_point
    let t1 := if new_pitch ≠ current_pitch then current_time + TURN_COST else current_time
    let t2 := t1 + MOVE_COST
    let tl ← calcTimingAux to_point new_pitch t2 rest
    pure (PathTimePoint.mk to_point t2 :: tl)

/-- `PathPlanning.calculate_path_timing`. -/
def calculate_path_timing (path : List PointEx) (initial_pitch : Direction) :
    Option (List PathTimePoint) :=
  match path with
  | [] => some []
  | p0 :: rest => do
    let tl ← calcTimingAux p0 initial_pitch 0 rest
    pure (PathTimePoint.mk p0 0 :: tl)

/-- Abstract walk along a path: final orientation and accumulated cost,
mirroring both the per-step cost of `get_neighbors` and the accumulation of
`calculate_path_timing`. -/
def pathWalk (prev : PointEx) (pitch : Direction) (time : Int) :
    List PointEx → Option (Direction × Int)
  | [] => some (pitch, time)
  | q :: rest => do
    let d ← prev.get_pitch_to_neighbour q
    pathWalk q d (time + MOVE_COST + (if d ≠ pitch then TURN_COST else 0)) rest

end PathPlanning

/-- Task priority: NORMAL=0, HIGH=1. -/
inductive TaskPriority where
  | NORMAL
  | HIGH
deriving DecidableEq, Repr

def TaskPriority.value : TaskPriority → Int
  | .NORMAL => 0
  | .HIGH => 1

/-- Raw task row (class `TaskRecord`). -/
structure TaskRecord where
  task_id : String
  start_point : String
  end_point : String
  priority : TaskPriority
  remaining_time : Option Int
deriving DecidableEq, Repr

/-- Extended task (class `TaskEx`).  The `agv` field is the index of the
assigned AGV in the context's AGV list (the Python back-reference). -/
structure TaskEx where
  task_id : String
  start_point : String
  end_point : String
  priority : TaskPriority
  remaining_time : Option Int
  start_position : PointEx
  end_position : PointEx
  pickup_position : PointEx
  agv : Option Nat
  start_timestamp : Int
  complete_timestamp : Int
  is_completed : Bool
deriving DecidableEq, Repr

/-- `TaskEx.__init__`. -/
def mkTaskEx (task_record : TaskRecord) (start_position end_position : PointEx) : TaskEx :=
  { task_id := task_record.task_id
    start_point := task_record.start_point
    end_point := task_record.end_point
    priority := task_record.priority
    remaining_time := task_record.remaining_time
    start_position := start_position
    end_position := end_position
    pickup_position :=
      if start_position.x > 10 then start_position.left_neighbour
      else start_position.right_neighbour
    agv := none
    start_timestamp := 0
    complete_timestamp := 0
    is_completed := false }

/-- `TaskEx.is_pending`: the task has never been attached to an AGV. -/
def TaskEx.is_pending (t : TaskEx) : Bool := t.agv == none

/-- AGV state (class `Agv`).  `loaded_task` is the index of the carried
task in the context's task list. -/
structure Agv where
  name : String
  position : PointEx
  pitch : Direction
  is_loaded : Bool
  loaded_task : Option Nat
  path_time_points : List PathTimePoint
deriving DecidableEq, Repr

/-- `Agv.should_turn`; `none` when `get_pitch_to_neighbour` would raise. -/
def Agv.should_turn (agv : Agv) : Option Bool :=
  if agv.path_time_points.length > 1 then do
    let p1 ← agv.path_time_points.get? 1
    let d ← agv.position.get_pitch_to_neighbour p1.position
    pure (d != agv.pitch)
  else pure false

/-- `Agv.should_move`. -/
def Agv.should_move (agv : Agv) : Option Bool :=
  if agv.path_time_points.length > 1 then do
    let p1 ← agv.path_time_points.get? 1
    let d ← agv.position.get_pitch_to_neighbour p1.position
    pure (d == agv.pitch)
  else pure false

/-- `Agv.turn()` without a specified pitch: face the next path point and
discount one time unit from every pending path entry after the head. -/
def Agv.turn_auto (agv : Agv) : Option Agv :=
  if agv.path_time_points.length > 1 then do
    let p1 ← agv.path_time_points.get? 1
    let d ← agv.position.get_pitch_to_neighbour p1.position
    pure { agv with
           pitch := d,
           path_time_points :=
             match agv.path_time_points with
             | [] => []
             | h :: t => h :: t.map (fun pt => { pt with time_cost := pt.time_cost - 1 }) }
  else pure agv

/-- `Agv.turn(specified_pitch)`: rotate in place only. -/
def Agv.turn_to (agv : Agv) (specified_pitch : Direction) : Agv :=
  { agv with pitch := specified_pitch }

/-- `Agv.move()`: step to the second path point, discount every time cost,
drop the consumed head. -/
def Agv.move (agv : Agv) : Option Agv :=
  if agv.path_time_points.length > 1 then do
    let p1 ← agv.path_time_points.get? 1
    pure { agv with
           position := p1.position,
           path_time_points :=
             (agv.path_time_points.map
               (fun pt => { pt with time_cost := pt.time_cost - 1 })).tail }
  else pure agv

/-- One row captured by `TrajectoryRecorderService.add`. -/
structure TrajRecord where
  timestamp : Int
  name : String
  x : Int
  y : Int
  pitch : Int
  loaded : Bool
  destination : String
  emergency : Bool
  task_id : String
deriving DecidableEq, Repr

/-- Map element kinds. -/
inductive MapElementType where
  | START_POINT
  | END_POINT
  | AGV
deriving DecidableEq, Repr

/-- Map element row (class `MapElement`). -/
structure MapElement where
  type : MapElementType
  name : String
  x : Int
  y : Int
  pitch : Option Direction
deriving DecidableEq, Repr

/-- The whole mutable world of a run: the fields of `AgvContext` that the
scheduler reads and writes, the recorder's rows and the scheduler's clock. -/
structure SchedState where
  tasks : List TaskEx
  agvs : List Agv
  fixed_map_obstacles : List PointEx
  trajectory_records : List TrajRecord
  timestamp : Int
deriving DecidableEq, Repr

/-- The pending tasks paired with their index in the task list (list order
is the task-table order; the index stands for Python object identity). -/
def pendingEnum (tasks : List TaskEx) : List (Nat × TaskEx) :=
  tasks.enum.filter (fun it => it.2.is_pending)

def middleY : Int := 10

/-- The compound `sort_key` of `get_sorted_pending_tasks`, as the 5-tuple
(sequence index in the start_point group, negated priority value, −1 if the
group holds a High task else 0, negated group length, 0 if the pickup is
off the middle row else 1). -/
def sort_key (pending : List (Nat × TaskEx)) (it : Nat × TaskEx) : List Int :=
  let group := pending.filter (fun jt => jt.2.start_point == it.2.start_point)
  let sequence_index : Int := (group.findIdx (fun jt => jt.1 == it.1) : Nat)
  let priority_value : Int := - it.2.priority.value
  let has_high_priority := group.any (fun jt => jt.2.priority == TaskPriority.HIGH)
  let has_high_priority_value : Int := if has_high_priority then -1 else 0
  let queue_length : Int := - (group.length : Int)
  let y_position : Int := if it.2.pickup_position.y ≠ middleY then 0 else 1
  [sequence_index, priority_value, has_high_priority_value, queue_length, y_position]

/-- Lexicographic comparison of equal-length integer lists: Python tuple
`<=`. -/
def intListLe : List Int → List Int → Bool
  | [], _ => true
  | _ :: _, [] => false
  | a :: as, b :: bs => decide (a < b) || (decide (a = b) && intListLe as bs)

/-- Insert into a sorted list, before the first not-smaller element: the
insertion step of a stable sort. -/
def insertSorted (le : α → α → Bool) (a : α) : List α → List α
  | [] => [a]
  | b :: bs => if le a b then a :: b :: bs else b :: insertSorted le a bs

/-- Stable insertion sort, modelling Python's stable `list.sort`. -/
def stableSort (le : α → α → Bool) : List α → List α
  | [] => []
  | a :: as => insertSorted le a (stableSort le as)

/-- `AgvContext.get_sorted_pending_tasks` over indexed tasks. -/
def get_sorted_pending_tasks (tasks : List TaskEx) : List (Nat × TaskEx) :=
  let pending_tasks := pendingEnum tasks
  stableSort
    (fun a b => intListLe (sort_key pending_tasks a) (sort_key pending_tasks b))
    pending_tasks

open PathPlanning in
/-- `TrajectoryRecorderService.add`: append one row per AGV at `ts`. -/
def recorderAdd (st : SchedState) (ts : Int) : Option SchedState := do
  let recs ← st.agvs.mapM (fun agv => do
    let info ← match agv.loaded_task with
      | some ti => do
        let t ← st.tasks.get? ti
        pure (t.end_point, t.priority == TaskPriority.HIGH, t.task_id)
      | none => pure ("", false, "")
    pure { timestamp := ts, name := agv.name, x := agv.position.x, y := agv.position.y,
           pitch := agv.pitch.value, loaded := agv.is_loaded,
           destination := info.1, emergency := info.2.1, task_id := info.2.2 : TrajRecord })
  pure { st with trajectory_records := st.trajectory_records ++ recs }

/-- `AgvContext._get_position_by_name`. -/
def getPositionByName (map_elements : List MapElement) (t : MapElementType)
    (name : String) : Option PointEx :=
  (map_elements.find? (fun e => e.type == t && e.name == name)).map
    (fun e => PointEx.mk e.x e.y)

/-- The integers from `lo` to `hi` inclusive (Python `range(lo, hi + 1)`). -/
def intRange (lo hi : Int) : List Int :=
  (List.range (hi + 1 - lo).toNat).map (fun k => lo + k)

/-- `AgvContext.__init__` followed by `SchedulerService.__init__`: build the
extended tasks, the AGV list, the fixed obstacle set (every start/end cell
plus a one-cell border around the bounding box), record the initial
snapshot and start the clock at 0.  `none` where the source would raise
(unknown point name, empty map, or an AGV row without a parsed pitch). -/
def mkContext (map_elements : List MapElement) (task_records : List TaskRecord) :
    Option SchedState := do
  let tasks ← task_records.mapM (fun tr => do
    let sp ← getPositionByName map_elements .START_POINT tr.start_point
    let ep ← getPositionByName map_elements .END_POINT tr.end_point
    pure (mkTaskEx tr sp ep))
  let agvs ← (map_elements.filter (fun m => m.type == .AGV)).mapM (fun m => do
    let p ← m.pitch
    pure (Agv.mk m.name (PointEx.mk m.x m.y) p false none []))
  let xs := map_elements.map (·.x)
  let ys := map_elements.map (·.y)
  let min_x ← xs.min?
  let max_x ← xs.max?
  let min_y ← ys.min?
  let max_y ← ys.max?
  let startEnd := (map_elements.filter
      (fun m => m.type == .START_POINT || m.type == .END_POINT)).map
      (fun m => PointEx.mk m.x m.y)
  let horiz := (intRange (min_x - 1) (max_x + 1)).foldr
      (fun x acc => PointEx.mk x (min_y - 1) :: PointEx.mk x (max_y + 1) :: acc) []
  let vert := (intRange (min_y - 1) (max_y + 1)).foldr
      (fun y acc => PointEx.mk (min_x - 1) y :: PointEx.mk (max_x + 1) y :: acc) []
  recorderAdd
    { tasks := tasks, agvs := agvs,
      fixed_map_obstacles := startEnd ++ horiz ++ vert,
      trajectory_records := [], timestamp := 0 } 0

/-- `Agv.can_unload`, resolving the carried task in the context. -/
def canUnload (st : SchedState) (agv : Agv) : Option Bool :=
  if agv.is_loaded then
    match agv.loaded_task with
    | none => pure false
    | some ti => do
      let t ← st.tasks.get? ti
      pure (agv.position.is_neighbour t.end_position)
  else pure false

/-- `Agv.unload(timestamp)`: complete the carried task and clear the AGV. -/
def unloadAgv (st : SchedState) (i : Nat) : Option SchedState := do
  let agv ← st.agvs.get? i
  let st1 ← match agv.loaded_task with
    | some ti => do
      let t ← st.tasks.get? ti
      let t2 := { t with complete_timestamp := st.timestamp, is_completed := true }
      pure { st with tasks := st.tasks.set ti t2 }
    | none => pure st
  let agv2 := { agv with
                path_time_points := ([] : List PathTimePoint),
                is_loaded := false,
                loaded_task := (none : Option Nat) }
  pure { st1 with agvs := st1.agvs.set i agv2 }

/-- `Agv.load(task, timestamp)` plus `TaskEx.load_by`. -/
def loadAgv (st : SchedState) (i ti : Nat) : Option SchedState := do
  let agv ← st.agvs.get? i
  let t ← st.tasks.get? ti
  let t2 := { t with agv := some i, start_timestamp := st.timestamp }
  let st1 := { st with tasks := st.tasks.set ti t2 }
  pure { st1 with agvs := st1.agvs.set i { agv with is_loaded := true, loaded_task := some ti } }

/-- Phase 1 of `SchedulerService.process`: unload every AGV adjacent to its
delivery. -/
def phaseUnload (st0 : SchedState) (handled0 : List Nat) :
    Option (SchedState × List Nat) :=
  (List.range st0.agvs.length).foldlM
    (fun acc i => do
      if i ∈ acc.2 then pure acc
      else do
        let agv ← acc.1.agvs.get? i
        let cu ← canUnload acc.1 agv
        if cu then do
          let st2 ← unloadAgv acc.1 i
          pure (st2, acc.2 ++ [i])
        else pure acc)
    (st0, handled0)

/-- The scan of phase 2: first pending task (in compound order) whose
pickup position equals `pos`. -/
def findLoadTask (st : SchedState) (pos : PointEx) : List Nat → Option (Option Nat)
  | [] => pure none
  | ti :: rest => do
    let t ← st.tasks.get? ti
    if t.pickup_position = pos then pure (some ti) else findLoadTask st pos rest

/-- Phase 2 of `process`: load every empty AGV standing on a pickup cell. -/
def phaseLoad (st0 : SchedState) (handled0 : List Nat) :
    Option (SchedState × List Nat) :=
  let pending_load_tasks := (get_sorted_pending_tasks st0.tasks).map (·.1)
  (List.range st0.agvs.length).foldlM
    (fun acc i => do
      if i ∈ acc.2 then pure acc
      else do
        let agv ← acc.1.agvs.get? i
        if agv.is_loaded then pure acc
        else do
          let found ← findLoadTask acc.1 agv.position pending_load_tasks
          match found with
          | some ti => do
            let st2 ← loadAgv acc.1 i ti
            pure (st2, acc.2 ++ [i])
          | none => pure acc)
    (st0, handled0)

/-- `SchedulerService._get_obstacles`: cells next to AGV `i` occupied by any
AGV, plus each sole free escape cell of another AGV (cross-lock
pre-emption) when that cell is adjacent to AGV `i`. -/
def getObstacles (st : SchedState) (i : Nat) (agv : Agv) : List PointEx :=
  let agv_positions := st.agvs.map (·.position)
  let occupied := agv.position.neighbours.filter (fun pos => decide (pos ∈ agv_positions))
  let extra :=
    (st.agvs.enum.filter (fun jb => decide (jb.1 ≠ i))).foldr
      (fun jb acc =>
        let n1 := jb.2.position.neighbours.filter
          (fun n => decide (n ∉ st.fixed_map_obstacles))
        let n2 := n1.filter (fun n =>
          ! st.agvs.enum.any (fun kc =>
            (kc.1 != jb.1) && kc.2.position.is_neighbour jb.2.position
              && (kc.2.position == n)))
        match n2 with
        | [n0] => if n0 ∈ agv.position.neighbours then n0 :: acc else acc
        | _ => acc)
      []
  occupied ++ extra

/-- `SchedulerService._build_obstacles`. -/
def build_obstacles (st : SchedState) (additional : List PointEx) : List PointEx :=
  st.fixed_map_obstacles ++ additional

/-- Remove the first occurrence (Python `list.remove`; `none` when absent,
where the source raises `ValueError`). -/
def removeFirst [DecidableEq α] (a : α) : List α → Option (List α)
  | [] => none
  | b :: bs => if b = a then some bs else (removeFirst a bs).map (b :: ·)

/-- `SchedulerService._calculate_path_to_pickup_position`. -/
def calc_path_to_pickup (st : SchedState) (agv : Agv) (task : TaskEx)
    (additional : List PointEx) : List PointEx :=
  PathPlanning.a_star_with_orientation agv.position task.pickup_position agv.pitch
    (build_obstacles st additional) none

/-- `SchedulerService._calculate_path_to_end_point` (the delivery cell is
struck from the obstacle list before planning). -/
def calc_path_to_end (st : SchedState) (agv : Agv) (task : TaskEx)
    (additional : List PointEx) : Option (List PointEx) := do
  let obstacles ← removeFirst task.end_position (build_obstacles st additional)
  pure (PathPlanning.a_star_with_orientation agv.position task.end_position agv.pitch
    obstacles none)

/-- A `moved_items` entry: AGV index, its pre-move position, its task's
index. -/
abbrev MovedItem := Nat × PointEx × Nat

/-- `current_agv_task` resolution of `_batch_move_agvs` (`st` kept for the
call shape; the loaded branch reads the AGV's own reference). -/
def resolveBatchTask (_st : SchedState) (is_loaded : Bool)
    (temp_assignments : List (Nat × Nat)) (i : Nat) (agv : Agv) : Option Nat :=
  if is_loaded then agv.loaded_task
  else (temp_assignments.find? (fun p => p.1 == i)).map (·.2)

/-- The path re-planning step of `_batch_move_agvs` for one candidate. -/
def batchPlanPath (st : SchedState) (is_loaded : Bool) (i : Nat) (agv : Agv)
    (current_task : TaskEx) : Option (List PointEx) :=
  let additional := getObstacles st i agv
  if is_loaded then calc_path_to_end st agv current_task additional
  else pure (calc_path_to_pickup st agv current_task additional)

/-- The four cross-lock turn conditions of `_batch_move_agvs`, indexed by
the mandated turn direction: the geometric relation between the candidate
`agv` (with task `ct`) and a previously-moved AGV (`mAgv`, pre-move
position `mpos`, task `mTask`). -/
def crossCond (d : Direction) (agv : Agv) (ct : TaskEx) (mAgv : Agv)
    (mpos : PointEx) (mTask : TaskEx) : Prop :=
  match d with
  | .UP => (agv.pitch = .LEFT ∨ agv.pitch = .RIGHT) ∧
      mpos.x = agv.position.x ∧ mpos.y = agv.position.y + 1 ∧
      ct.end_position.y > agv.position.y ∧
      mTask.end_position.y ≤ mAgv.position.y
  | .DOWN => (agv.pitch = .LEFT ∨ agv.pitch = .RIGHT) ∧
      mpos.x = agv.position.x ∧ mpos.y = agv.position.y - 1 ∧
      ct.end_position.y < agv.position.y ∧
      mTask.end_position.y ≥ mAgv.position.y
  | .LEFT => (agv.pitch = .UP ∨ agv.pitch = .DOWN) ∧
      mpos.y = agv.position.y ∧ mpos.x = agv.position.x - 1 ∧
      ct.end_position.x < agv.position.x ∧
      mTask.end_position.x ≥ mAgv.position.x
  | .RIGHT => (agv.pitch = .UP ∨ agv.pitch = .DOWN) ∧
      mpos.y = agv.position.y ∧ mpos.x = agv.position.x + 1 ∧
      ct.end_position.x > agv.position.x ∧
      mTask.end_position.x ≤ mAgv.position.x

instance crossCondDecidable (d : Direction) (agv : Agv) (ct : TaskEx) (mAgv : Agv)
    (mpos : PointEx) (mTask : TaskEx) : Decidable (crossCond d agv ct mAgv mpos mTask) := by
  cases d <;> dsimp only [crossCond] <;> infer_instance

/-- The cross-lock scan of `_batch_move_agvs` over the already-moved AGVs:
the first entry matching one of the four turn conditions decides the turn
direction. -/
def checkMovedConflict (st : SchedState) (agv : Agv) (current_task : TaskEx) :
    List MovedItem → Option (Option Direction)
  | [] => pure none
  | item :: rest => do
    let moved_agv ← st.agvs.get? item.1
    let moved_task ← st.tasks.get? item.2.2
    let moved_pos := item.2.1
    if moved_agv.pitch = agv.pitch then
      if crossCond .UP agv current_task moved_agv moved_pos moved_task then
        pure (some Direction.UP)
      else if crossCond .DOWN agv current_task moved_agv moved_pos moved_task then
        pure (some Direction.DOWN)
      else if crossCond .LEFT agv current_task moved_agv moved_pos moved_task then
        pure (some Direction.LEFT)
      else if crossCond .RIGHT agv current_task moved_agv moved_pos moved_task then
        pure (some Direction.RIGHT)
      else checkMovedConflict st agv current_task rest
    else checkMovedConflict st agv current_task rest

/-- The body of the inner `for` loop of `_batch_move_agvs` for one
candidate AGV: replan, store the timing, skip short or misaligned paths,
turn on cross-lock, otherwise move one step.  The returned flag tells
whether this candidate acted (`is_assigned`). -/
def batchTryAgv (is_loaded : Bool) (temp_assignments : List (Nat × Nat)) (i : Nat)
    (st : SchedState) (handled : List Nat) (moved : List MovedItem) :
    Option (SchedState × List Nat × List MovedItem × Bool) := do
  if i ∈ handled then pure (st, handled, moved, false)
  else do
    let agv ← st.agvs.get? i
    if agv.is_loaded ≠ is_loaded then pure (st, handled, moved, false)
    else do
      let ti ← resolveBatchTask st is_loaded temp_assignments i agv
      let current_task ← st.tasks.get? ti
      let path ← batchPlanPath st is_loaded i agv current_task
      let tps ← PathPlanning.calculate_path_timing path agv.pitch
      let agv := { agv with path_time_points := tps }
      let st := { st with agvs := st.agvs.set i agv }
      if tps.length < 2 then pure (st, handled, moved, false)
      else do
        let p1 ← tps.get? 1
        let expect_pitch ← agv.position.get_pitch_to_neighbour p1.position
        if expect_pitch ≠ agv.pitch then pure (st, handled, moved, false)
        else do
          let conflict ← checkMovedConflict st agv current_task moved
          match conflict with
          | some d =>
            let agv2 := { agv with pitch := d, path_time_points := ([] : List PathTimePoint) }
            pure ({ st with agvs := st.agvs.set i agv2 },
                  handled ++ [i], moved, true)
          | none => do
            let agv2 ← agv.move
            pure ({ st with agvs := st.agvs.set i agv2 },
                  handled ++ [i], moved ++ [(i, agv.position, ti)], true)

/-- One full pass of the `while True` loop of `_batch_move_agvs`. -/
def batchPass (is_loaded : Bool) (temp : List (Nat × Nat)) (candidates : List Nat)
    (st0 : SchedState) (handled0 : List Nat) (moved0 : List MovedItem) :
    Option (SchedState × List Nat × List MovedItem × Bool) :=
  candidates.foldlM
    (fun acc i => do
      let r ← batchTryAgv is_loaded temp i acc.1 acc.2.1 acc.2.2.1
      pure (r.1, r.2.1, r.2.2.1, acc.2.2.2 || r.2.2.2))
    (st0, handled0, moved0, false)

/-- The `while True` loop: repeat passes until one makes no progress.  Each
productive pass marks at least one fresh candidate handled, so
`candidates.length + 1` passes always suffice for the source's loop. -/
def batchLoop (is_loaded : Bool) (temp : List (Nat × Nat)) (candidates : List Nat) :
    Nat → SchedState → List Nat → List MovedItem → Option (SchedState × List Nat)
  | 0, st, handled, _ => pure (st, handled)
  | fuel + 1, st, handled, moved => do
    let r ← batchPass is_loaded temp candidates st handled moved
    if r.2.2.2 then batchLoop is_loaded temp candidates fuel r.1 r.2.1 r.2.2.1
    else pure (r.1, r.2.1)

/-- `SchedulerService._batch_move_agvs`. -/
def batch_move_agvs (st : SchedState) (handled : List Nat) (candidates : List Nat)
    (is_loaded : Bool) (temp : List (Nat × Nat)) : Option (SchedState × List Nat) :=
  batchLoop is_loaded temp candidates (candidates.length + 1) st handled []

/-- Phase 4 of `process`: remaining loaded AGVs turn toward their next path
point. -/
def phaseTurnLoaded (st0 : SchedState) (handled0 : List Nat) :
    Option (SchedState × List Nat) :=
  (List.range st0.agvs.length).foldlM
    (fun acc i => do
      if i ∈ acc.2 then pure acc
      else do
        let agv ← acc.1.agvs.get? i
        if agv.is_loaded then do
          let stt ← agv.should_turn
          if stt then do
            let agv2 ← agv.turn_auto
            pure ({ acc.1 with agvs := acc.1.agvs.set i agv2 }, acc.2 ++ [i])
          else pure acc
        else pure acc)
    (st0, handled0)

/-- Sorting key of the assignment options: final cumulative time of the
planned path, or `none` for an empty plan (Python `float('inf')`). -/
def assignmentKey (opt : Nat × List PathTimePoint) : Option Int :=
  (opt.2.getLast?).map (·.time_cost)

/-- Order on assignment keys with `none` as plus infinity. -/
def optionKeyLe (a b : Option Int) : Bool :=
  match a, b with
  | some u, some v => decide (u ≤ v)
  | some _, none => true
  | none, some _ => false
  | none, none => true

/-- Phase 5 of `process`: walk the sorted pending tasks; for each, plan
every idle AGV's path to the pickup, pick the candidate with the least
final time (stable on ties), store its timing, and reserve it in the
temporary assignment table.  Stops when the idle pool is empty. -/
def assignTasks : SchedState → List Nat → List Nat → List (Nat × Nat) →
    Option (SchedState × List (Nat × Nat))
  | st, [], _, temp => pure (st, temp)
  | st, _ :: _, [], temp => pure (st, temp)
  | st, ti :: rest, idle, temp => do
    let task ← st.tasks.get? ti
    let options ← idle.mapM (fun ai => do
      let agv ← st.agvs.get? ai
      let tps ← PathPlanning.calculate_path_timing
        (calc_path_to_pickup st agv task (getObstacles st ai agv)) agv.pitch
      pure (ai, tps))
    match stableSort (fun a b => optionKeyLe (assignmentKey a) (assignmentKey b)) options with
    | [] => assignTasks st rest idle temp
    | best :: _ => do
      let agv ← st.agvs.get? best.1
      assignTasks
        { st with agvs := st.agvs.set best.1 { agv with path_time_points := best.2 } }
        rest (idle.erase best.1) (temp ++ [(best.1, ti)])

/-- Phase 6 of `process`: newly-assigned AGVs first turn (those whose next
step needs it), then the rest move through the batched conflict
resolution. -/
def phaseMoveIdle (st : SchedState) (handled : List Nat) (temp : List (Nat × Nat)) :
    Option (SchedState × List Nat) := do
  let keys := temp.map (·.1)
  let turn_agvs ← keys.filterM (fun j => do
    let agv ← st.agvs.get? j
    agv.should_turn)
  let move_agvs ← keys.filterM (fun j => do
    let agv ← st.agvs.get? j
    agv.should_move)
  let st2 ← turn_agvs.foldlM (fun s j => do
    let agv ← s.agvs.get? j
    let agv2 ← agv.turn_auto
    pure { s with agvs := s.agvs.set j agv2 }) st
  batch_move_agvs st2 handled move_agvs false temp

/-- Candidate edge cells of the parking phase, in source order: top (y=20),
bottom (y=1), right (x=20), left (x=1), each dropped when a loaded AGV
blocks that side of the row or column. -/
def parkPoints (st : SchedState) (agv : Agv) : List PointEx :=
  let x := agv.position.x
  let y := agv.position.y
  let loaded_agvs := st.agvs.filter (·.is_loaded)
  (if loaded_agvs.any (fun b => b.position.x == x && decide (b.position.y > y)) then []
   else [PointEx.mk x 20]) ++
  (if loaded_agvs.any (fun b => b.position.x == x && decide (b.position.y < y)) then []
   else [PointEx.mk x 1]) ++
  (if loaded_agvs.any (fun b => decide (b.position.x > x) && b.position.y == y) then []
   else [PointEx.mk 20 y]) ++
  (if loaded_agvs.any (fun b => decide (b.position.x < x) && b.position.y == y) then []
   else [PointEx.mk 1 y])

/-- Python `min(points, key=distance)`: first point of least Manhattan
distance. -/
def minByDistance (from_pos : PointEx) : List PointEx → Option PointEx
  | [] => none
  | p :: ps =>
    match minByDistance from_pos ps with
    | none => some p
    | some q =>
      if PathPlanning.manhattan q from_pos < PathPlanning.manhattan p from_pos then some q
      else some p

/-- Parking of a single idle AGV: plan to the chosen edge cell, store the
timing, then take a single move or turn toward it. -/
def parkOne (st : SchedState) (i : Nat) : Option SchedState := do
  let agv ← st.agvs.get? i
  let obstacles := build_obstacles st (getObstacles st i agv)
  match minByDistance agv.position (parkPoints st agv) with
  | none => pure st
  | some goal => do
    let path := PathPlanning.a_star_with_orientation agv.position goal agv.pitch
      obstacles none
    let tps ← PathPlanning.calculate_path_timing path agv.pitch
    let agv2 := { agv with path_time_points := tps }
    let sm ← agv2.should_move
    if sm then do
      let agv3 ← agv2.move
      pure { st with agvs := st.agvs.set i agv3 }
    else do
      let stt ← agv2.should_turn
      if stt then do
        let agv3 ← agv2.turn_auto
        pure { st with agvs := st.agvs.set i agv3 }
      else pure { st with agvs := st.agvs.set i agv2 }

/-- Phase 7 of `process`: once no task is pending, every unhandled AGV
parks toward the nearest free map edge. -/
def parkIdleAgvs (st0 : SchedState) (handled : List Nat) : Option SchedState :=
  ((List.range st0.agvs.length).filter (fun i => decide (i ∉ handled))).foldlM
    parkOne st0

/-- The seven phases of one tick, after the deadlock guard: the body of
`SchedulerService.process`.  `none` wherever the source would raise inside
the tick. -/
def processBody (st0 : SchedState) : Option SchedState := do
  let st := { st0 with timestamp := st0.timestamp + 1 }
  let handled : List Nat := []
  let (st, handled) ← phaseUnload st handled
  let (st, handled) ← phaseLoad st handled
  let loaded_idxs := (st.agvs.enum.filter (fun ia => ia.2.is_loaded)).map (·.1)
  let (st, handled) ← batch_move_agvs st handled loaded_idxs true []
  let (st, handled) ← phaseTurnLoaded st handled
  let pending_tasks := (get_sorted_pending_tasks st.tasks).map (·.1)
  let idle_agvs := (st.agvs.enum.filter
      (fun ia => decide (ia.1 ∉ handled) && !ia.2.is_loaded)).map (·.1)
  let (st, temp) ← assignTasks st pending_tasks idle_agvs []
  let (st, handled) ← phaseMoveIdle st handled temp
  let st ← if pending_tasks.isEmpty then parkIdleAgvs st handled else pure st
  recorderAdd st st.timestamp

/-- Scheduler failure kinds: the deadlock guard, or any other in-tick raise
of the source (attribute/key/value errors on states the scheduler never
produces). -/
inductive SchedErr where
  | deadlock
  | internalError
deriving DecidableEq, Repr

def MAX_TIMESTAMP : Int := 400

/-- `SchedulerService.process`: the deadlock guard precedes every mutation
of the tick. -/
def process (st : SchedState) : Except SchedErr SchedState :=
  if st.timestamp > MAX_TIMESTAMP then Except.error SchedErr.deadlock
  else
    match processBody st with
    | some st2 => Except.ok st2
    | none => Except.error SchedErr.internalError

/-- `AgvContext.all_tasks_completed`. -/
def allTasksCompleted (st : SchedState) : Bool := st.tasks.all (·.is_completed)

/-- `SchedulerService.process_to_complete`, with fuel for the outer `while`
(an error is paired with the clock value at entry of the failing tick). -/
def process_to_complete : Nat → SchedState → Except (SchedErr × Int) SchedState
  | 0, st => Except.error (SchedErr.internalError, st.timestamp)
  | fuel + 1, st =>
    if allTasksCompleted st then Except.ok st
    else
      match process st with
      | Except.ok st2 => process_to_complete fuel st2
      | Except.error e => Except.error (e, st.timestamp)

/-- `n` consecutive calls of `process`. -/
def processNIter : Nat → SchedState → Except SchedErr SchedState
  | 0, st => Except.ok st
  | n + 1, st =>
    match process st with
    | Except.ok st2 => processNIter n st2
    | Except.error e => Except.error e

/-- No two AGVs of the state occupy the same cell (AGVs are identified by
their index in the context's AGV list). -/
def DistinctPositions (st : SchedState) : Prop :=
  ∀ i j, i ≠ j → ∀ a b, st.agvs.get? i = some a → st.agvs.get? j = some b →
    a.position ≠ b.position

/-- Every task's delivery cell is registered as a fixed obstacle (true of
every constructed context, since delivery cells are end-point cells). -/
def EndsInFixed (st : SchedState) : Prop :=
  ∀ t ∈ st.tasks, t.end_position ∈ st.fixed_map_obstacles

/-- The state invariant carried through the tick. -/
def GoodState (st : SchedState) : Prop := DistinctPositions st ∧ EndsInFixed st

/-- What a single phase leaves untouched. -/
def StepPres (st st2 : SchedState) : Prop :=
  st2.fixed_map_obstacles = st.fixed_map_obstacles ∧
  st2.tasks.map (·.end_position) = st.tasks.map (·.end_position) ∧
  st2.agvs.length = st.agvs.length ∧
  st2.timestamp = st.timestamp

/-- Phase contract: structure preserved, and the invariant carried. -/
def PhasePres (st st2 : SchedState) : Prop :=
  StepPres st st2 ∧ (GoodState st → GoodState st2)

/-! ## Lemmas about the compound sort -/

lemma intListLe_refl : ∀ l : List Int, intListLe l l = true
  | [] => rfl
  | a :: as => by simp [intListLe, intListLe_refl as]

lemma intListLe_total : ∀ a b : List Int, intListLe a b = true ∨ intListLe b a = true
  | [], _ => Or.inl rfl
  | _ :: _, [] => Or.inr rfl
  | a :: as, b :: bs => by
    rcases lt_trichotomy a b with h | h | h
    · exact Or.inl (by simp [intListLe, h])
    · subst h
      rcases intListLe_total as bs with h2 | h2
      · exact Or.inl (by simp [intListLe, h2])
      · exact Or.inr (by simp [intListLe, h2])
    · exact Or.inr (by simp [intListLe, h])

lemma intListLe_trans : ∀ a b c : List Int,
    intListLe a b = true → intListLe b c = true → intListLe a c = true
  | [], _, _, _, _ => rfl
  | _ :: _, [], _, h, _ => by simp [intListLe] at h
  | _ :: _, _ :: _, [], _, h => by simp [intListLe] at h
  | a :: as, b :: bs, c :: cs, h1, h2 => by
    simp only [intListLe, Bool.or_eq_true, Bool.and_eq_true, decide_eq_true_eq] at h1 h2 ⊢
    rcases h1 with h1 | ⟨rfl, h1⟩
    · rcases h2 with h2 | ⟨rfl, _⟩
      · exact Or.inl (h1.trans h2)
      · exact Or.inl h1
    · rcases h2 with h2 | ⟨rfl, h2⟩
      · exact Or.inl h2
      · exact Or.inr ⟨rfl, intListLe_trans as bs cs h1 h2⟩

lemma mem_insertSorted (le : α → α → Bool) (a x : α) :
    ∀ l, x ∈ insertSorted le a l ↔ x = a ∨ x ∈ l
  | [] => by simp [insertSorted]
  | b :: bs => by
    simp only [insertSorted]
    split
    · simp
    · simp [mem_insertSorted le a x bs]
      tauto

lemma insertSorted_perm (le : α → α → Bool) (a : α) :
    ∀ l, (insertSorted le a l).Perm (a :: l)
  | [] => List.Perm.refl _
  | b :: bs => by
    simp only [insertSorted]
    split
    · exact List.Perm.refl _
    · exact ((insertSorted_perm le a bs).cons b).trans (List.Perm.swap a b bs)

lemma stableSort_perm (le : α → α → Bool) : ∀ l, (stableSort le l).Perm l
  | [] => List.Perm.refl _
  | a :: as =>
    (insertSorted_perm le a (stableSort le as)).trans ((stableSort_perm le as).cons a)

lemma pairwise_insertSorted (le : α → α → Bool)
    (htot : ∀ x y, le x y = true ∨ le y x = true)
    (htrans : ∀ x y z, le x y = true → le y z = true → le x z = true) (a : α) :
    ∀ l, l.Pairwise (fun x y => le x y = true) →
      (insertSorted le a l).Pairwise (fun x y => le x y = true)
  | [], _ => by simp [insertSorted]
  | b :: bs, h => by
    rcases List.pairwise_cons.mp h with ⟨hb, hbs⟩
    simp only [insertSorted]
    split
    · rename_i hab
      refine List.pairwise_cons.mpr ⟨?_, h⟩
      intro y hy
      rcases List.mem_cons.mp hy with rfl | hy
      · exact hab
      · exact htrans a b y hab (hb y hy)
    · rename_i hab
      have hba : le b a = true := by
        rcases htot a b with h1 | h1
        · exact absurd h1 hab
        · exact h1
      refine List.pairwise_cons.mpr ⟨?_, pairwise_insertSorted le htot htrans a bs hbs⟩
      intro y hy
      rcases (mem_insertSorted le a y bs).mp hy with rfl | hy
      · exact hba
      · exact hb y hy

lemma stableSort_pairwise (le : α → α → Bool)
    (htot : ∀ x y, le x y = true ∨ le y x = true)
    (htrans : ∀ x y z, le x y = true → le y z = true → le x z = true) :
    ∀ l, (stableSort le l).Pairwise (fun x y => le x y = true)
  | [] => List.Pairwise.nil
  | a :: as =>
    pairwise_insertSorted le htot htrans a _ (stableSort_pairwise le htot htrans as)

lemma filter_insertSorted_pos (le : α → α → Bool) (p : α → Bool) (a : α)
    (hp : p a = true) (hle : ∀ b, le a b = false → p b = false) :
    ∀ l, (insertSorted le a l).filter p = a :: l.filter p
  | [] => by simp [insertSorted, hp]
  | b :: bs => by
    simp only [insertSorted]
    split
    · simp [List.filter, hp]
    · rename_i hab
      have hpb : p b = false := hle b (by simpa using hab)
      simp [List.filter, hpb, filter_insertSorted_pos le p a hp hle bs]

lemma filter_insertSorted_neg (le : α → α → Bool) (p : α → Bool) (a : α)
    (hp : p a = false) :
    ∀ l, (insertSorted le a l).filter p = l.filter p
  | [] => by simp [insertSorted, hp]
  | b :: bs => by
    simp only [insertSorted]
    split
    · simp [List.filter, hp]
    · by_cases hpb : p b = true
      · simp [List.filter, hpb, filter_insertSorted_neg le p a hp bs]
      · simp only [Bool.not_eq_true] at hpb
        simp [List.filter, hpb, filter_insertSorted_neg le p a hp bs]

/-- Stability of the insertion sort: filtering by any class of mutually
`le`-comparable elements commutes with sorting, i.e. such elements keep
their input order. -/
lemma stableSort_filter (le : α → α → Bool) (p : α → Bool)
    (hcl : ∀ x y, p x = true → p y = true → le x y = true) :
    ∀ l, (stableSort le l).filter p = l.filter p
  | [] => rfl
  | a :: as => by
    by_cases hp : p a = true
    · have hle : ∀ b, le a b = false → p b = false := by
        intro b hab
        by_contra hb
        simp only [Bool.not_eq_false] at hb
        rw [hcl a b hp hb] at hab
        exact Bool.noConfusion hab
      rw [stableSort, filter_insertSorted_pos le p a hp hle,
        stableSort_filter le p hcl as]
      simp [List.filter, hp]
    · simp only [Bool.not_eq_true] at hp
      rw [stableSort, filter_insertSorted_neg le p a hp,
        stableSort_filter le p hcl as]
      simp [List.filter, hp]

/-- The first components of the indexed pending tasks are strictly
increasing (task-table order). -/
lemma pendingEnum_pairwise (tasks : List TaskEx) :
    (pendingEnum tasks).Pairwise (fun a b => a.1 < b.1) := by
  have h1 : tasks.enum.Pairwise (fun a b => a.1 < b.1) := by
    have h0 : (tasks.enum.map Prod.fst).Pairwise (· < ·) := by
      rw [List.enum_map_fst]
      exact List.pairwise_lt_range tasks.length
    exact (List.pairwise_map.mp h0)
  exact h1.filter _

/-- C3 core: `get_sorted_pending_tasks` is a permutation of the pending
tasks, pairwise sorted by the compound key, and stable at every key. -/
theorem agv_c3 (tasks : List TaskEx) :
    (get_sorted_pending_tasks tasks).Perm (pendingEnum tasks) ∧
    (get_sorted_pending_tasks tasks).Pairwise
      (fun a b => intListLe (sort_key (pendingEnum tasks) a)
        (sort_key (pendingEnum tasks) b) = true) ∧
    ∀ k : List Int,
      (get_sorted_pending_tasks tasks).filter
        (fun it => sort_key (pendingEnum tasks) it == k) =
      (pendingEnum tasks).filter
        (fun it => sort_key (pendingEnum tasks) it == k) := by
  have hunfold : get_sorted_pending_tasks tasks =
      stableSort (fun a b => intListLe (sort_key (pendingEnum tasks) a)
        (sort_key (pendingEnum tasks) b)) (pendingEnum tasks) := rfl
  rw [hunfold]
  refine ⟨stableSort_perm _ _, ?_, ?_⟩
  · exact stableSort_pairwise
      (fun a b => intListLe (sort_key (pendingEnum tasks) a)
        (sort_key (pendingEnum tasks) b))
      (fun x y => intListLe_total _ _)
      (fun x y z hxy hyz => intListLe_trans _ _ _ hxy hyz) _
  · intro k
    refine stableSort_filter _ _ ?_ _
    intro x y hx hy
    have hx2 : sort_key (pendingEnum tasks) x = k := by simpa using hx
    have hy2 : sort_key (pendingEnum tasks) y = k := by simpa using hy
    rw [hx2, hy2]
    exact intListLe_refl k

/-- C8: the pickup position is the cell one step left of the start when
`start.x > 10`, else one step right, and in either case it is 4-adjacent to
the start position. -/
theorem agv_c8 (tr : TaskRecord) (sp ep : PointEx) :
    (mkTaskEx tr sp ep).pickup_position =
      (if sp.x > 10 then PointEx.mk (sp.x - 1) sp.y else PointEx.mk (sp.x + 1) sp.y) ∧
    (mkTaskEx tr sp ep).pickup_position.is_neighbour sp = true ∧
    sp.is_neighbour (mkTaskEx tr sp ep).pickup_position = true := by
  have h : (mkTaskEx tr sp ep).pickup_position =
      (if sp.x > 10 then PointEx.mk (sp.x - 1) sp.y else PointEx.mk (sp.x + 1) sp.y) := by
    simp only [mkTaskEx, PointEx.left_neighbour, PointEx.right_neighbour]
  refine ⟨h, ?_, ?_⟩ <;> rw [h] <;> split <;>
    simp [PointEx.is_neighbour, Bool.or_eq_true, Bool.and_eq_true, beq_iff_eq]

/-- The two tasks of the C2 scenario: the same start point, first Normal,
second High. -/
def c2TaskNormal : TaskEx :=
  mkTaskEx { task_id := "T1", start_point := "S1", end_point := "E1",
             priority := TaskPriority.NORMAL, remaining_time := none }
    (PointEx.mk 5 2) (PointEx.mk 9 2)

def c2TaskHigh : TaskEx :=
  mkTaskEx { task_id := "T2", start_point := "S1", end_point := "E2",
             priority := TaskPriority.HIGH, remaining_time := none }
    (PointEx.mk 5 2) (PointEx.mk 9 5)

/-- C2 counterexample: with two pending tasks sharing a start point, the
first Normal and the second High, `get_sorted_pending_tasks` keeps the
Normal task first — the sequence index (key 1) dominates the priority
component, so the High task is NOT considered first. -/
theorem agv_c2_cex :
    get_sorted_pending_tasks [c2TaskNormal, c2TaskHigh] =
      [(0, c2TaskNormal), (1, c2TaskHigh)] ∧
    c2TaskNormal.priority = TaskPriority.NORMAL ∧
    c2TaskHigh.priority = TaskPriority.HIGH ∧
    c2TaskNormal.start_point = c2TaskHigh.start_point ∧
    c2TaskNormal.is_pending = true ∧ c2TaskHigh.is_pending = true := by
  exact ⟨by decide, rfl, rfl, rfl, rfl, rfl⟩

/-- C2 amended: when the pending tasks are exactly a Normal task followed
by a High task with the same start point, the assignment order keeps the
file order — the Normal task is considered first and the High task second
(the group sequence index precedes the priority in the compound key). -/
theorem agv_c2_amended (tasks : List TaskEx) (i j : Nat) (t1 t2 : TaskEx)
    (hpend : pendingEnum tasks = [(i, t1), (j, t2)])
    (hsp : t1.start_point = t2.start_point)
    (hp1 : t1.priority = TaskPriority.NORMAL)
    (hp2 : t2.priority = TaskPriority.HIGH) :
    get_sorted_pending_tasks tasks = [(i, t1), (j, t2)] := by
  have hij : i ≠ j := by
    have hpw := pendingEnum_pairwise tasks
    rw [hpend] at hpw
    have := (List.pairwise_cons.mp hpw).1 (j, t2) (List.mem_singleton.mpr rfl)
    exact Nat.ne_of_lt this
  have hunfold : get_sorted_pending_tasks tasks =
      stableSort (fun a b => intListLe (sort_key (pendingEnum tasks) a)
        (sort_key (pendingEnum tasks) b)) (pendingEnum tasks) := rfl
  rw [hunfold, hpend]
  have hij2 : (i == j) = false := by
    simp [hij]
  have hkey1 : sort_key [(i, t1), (j, t2)] (i, t1) =
      [0, 0, -1, -2, if t1.pickup_position.y ≠ middleY then 0 else 1] := by
    simp [sort_key, hsp, hp1, hp2, TaskPriority.value, List.findIdx, List.findIdx.go]
  have hkey2 : sort_key [(i, t1), (j, t2)] (j, t2) =
      [1, -1, -1, -2, if t2.pickup_position.y ≠ middleY then 0 else 1] := by
    simp [sort_key, hsp, hp1, hp2, TaskPriority.value, List.findIdx, List.findIdx.go, hij2]
  simp only [stableSort, insertSorted, hkey1, hkey2]
  norm_num [intListLe]

/-- Witness for the amended C2: the two concrete tasks of the
counterexample satisfy the amended statement. -/
theorem agv_c2_amended_witness :
    get_sorted_pending_tasks [c2TaskNormal, c2TaskHigh] =
      [(0, c2TaskNormal), (1, c2TaskHigh)] :=
  agv_c2_amended [c2TaskNormal, c2TaskHigh] 0 1 c2TaskNormal c2TaskHigh
    (by decide) rfl rfl rfl

/-! ## Lemmas about the A* planner -/

namespace PathPlanning

lemma get_pitch_of_delta (p q : PointEx) :
    (q.x = p.x + 1 ∧ q.y = p.y → p.get_pitch_to_neighbour q = some .RIGHT) ∧
    (q.x = p.x - 1 ∧ q.y = p.y → p.get_pitch_to_neighbour q = some .LEFT) ∧
    (q.x = p.x ∧ q.y = p.y + 1 → p.get_pitch_to_neighbour q = some .UP) ∧
    (q.x = p.x ∧ q.y = p.y - 1 → p.get_pitch_to_neighbour q = some .DOWN) := by
  refine ⟨?_, ?_, ?_, ?_⟩ <;>
    · rintro ⟨hx, hy⟩
      simp only [PointEx.get_pitch_to_neighbour, hx, hy]
      norm_num

lemma mem_neighbours_of_delta (p q : PointEx)
    (h : (q.x = p.x + 1 ∧ q.y = p.y) ∨ (q.x = p.x - 1 ∧ q.y = p.y) ∨
      (q.x = p.x ∧ q.y = p.y + 1) ∨ (q.x = p.x ∧ q.y = p.y - 1)) :
    q ∈ p.neighbours := by
  simp only [PointEx.neighbours, PointEx.left_neighbour, PointEx.right_neighbour,
    PointEx.up_neighbour, PointEx.down_neighbour, List.mem_cons, List.not_mem_nil, or_false]
  rcases q with ⟨qx, qy⟩
  simp only [PointEx.mk.injEq] at h ⊢
  rcases h with ⟨h1, h2⟩ | ⟨h1, h2⟩ | ⟨h1, h2⟩ | ⟨h1, h2⟩ <;> omega

/-- Everything `get_neighbors` guarantees about a generated neighbour. -/
lemma mem_get_neighbors {size : Int × Int} {obstacles : List PointEx} {pos : PointEx}
    {o : Direction} {np : PointEx} {nd : Direction} {mc : Int}
    (h : (np, nd, mc) ∈ get_neighbors size obstacles pos o) :
    (1 ≤ np.x ∧ np.x ≤ size.1 ∧ 1 ≤ np.y ∧ np.y ≤ size.2) ∧ np ∉ obstacles ∧
    pos.get_pitch_to_neighbour np = some nd ∧ np ∈ pos.neighbours ∧
    mc = MOVE_COST + (if nd ≠ o then TURN_COST else 0) := by
  rw [get_neighbors] at h
  rcases List.mem_filterMap.mp h with ⟨dxy, hd, hval⟩
  simp only [astar_directions, List.mem_cons, List.not_mem_nil, or_false] at hd
  rcases hd with rfl | rfl | rfl | rfl <;>
    · simp only at hval
      split at hval <;> rename_i hc
      · obtain ⟨hnp, hnd, hmc⟩ : _ ∧ _ ∧ _ := by
          simpa [Prod.ext_iff] using (Option.some.inj hval).symm
        subst hnp
        subst hnd
        subst hmc
        obtain ⟨h1, h2, h3, h4, h5⟩ := hc
        refine ⟨⟨by simpa using h1, by simpa using h2, by simpa using h3,
          by simpa using h4⟩, by simpa using h5, ?_, ?_, by simp [ite_not]⟩
        · first
            | exact (get_pitch_of_delta pos _).1 (by constructor <;> (dsimp only; try omega))
            | exact (get_pitch_of_delta pos _).2.1 (by constructor <;> (dsimp only; try omega))
            | exact (get_pitch_of_delta pos _).2.2.1 (by constructor <;> (dsimp only; try omega))
            | exact (get_pitch_of_delta pos _).2.2.2 (by constructor <;> (dsimp only; try omega))
        · refine mem_neighbours_of_delta pos _ ?_
          dsimp only
          omega
      · exact absurd hval (by simp)

/-- An adjacent point (in the sense of `get_pitch_to_neighbour` succeeding
on a neighbour cell) never coincides with the origin. -/
lemma mem_neighbours_ne {p q : PointEx} (h : q ∈ p.neighbours) : q ≠ p := by
  simp only [PointEx.neighbours, PointEx.left_neighbour, PointEx.right_neighbour,
    PointEx.up_neighbour, PointEx.down_neighbour, List.mem_cons, List.not_mem_nil,
    or_false] at h
  rcases h with rfl | rfl | rfl | rfl <;>
    · intro hq
      rcases PointEx.mk.injEq .. ▸ hq with ⟨hx, hy⟩
      omega

/-- The last point of `prev :: l`. -/
def lastPoint (prev : PointEx) (l : List PointEx) : PointEx := l.getLastD prev

lemma pathWalk_append (q : PointEx) :
    ∀ (l : List PointEx) (prev : PointEx) (pitch : Direction) (t : Int),
    pathWalk prev pitch t (l ++ [q]) =
      (pathWalk prev pitch t l).bind (fun dc =>
        ((lastPoint prev l).get_pitch_to_neighbour q).map
          (fun d => (d, dc.2 + MOVE_COST + if d ≠ dc.1 then TURN_COST else 0)))
  | [], prev, pitch, t => by
    simp only [List.nil_append, pathWalk, lastPoint, List.getLastD]
    cases prev.get_pitch_to_neighbour q <;> simp [pathWalk]
  | r :: rs, prev, pitch, t => by
    cases hpr : prev.get_pitch_to_neighbour r with
    | none => simp [pathWalk, hpr]
    | some d =>
      simp only [List.cons_append, pathWalk, hpr, Option.some_bind, Option.bind_eq_bind]
      simp only [List.append_eq]
      rw [pathWalk_append q rs r d (t + MOVE_COST + if d ≠ pitch then TURN_COST else 0)]
      simp only [lastPoint, List.getLastD_cons]

/-- `calcTimingAux` succeeds exactly when the abstract walk does, its
points are the walked points, and its final cumulative time is the walk's
final time. -/
lemma calcTimingAux_walk :
    ∀ (rest : List PointEx) (prev : PointEx) (pitch : Direction) (t : Int)
      (l : List PathTimePoint),
    calcTimingAux prev pitch t rest = some l →
    l.map (·.position) = rest ∧
    ∃ dc, pathWalk prev pitch t rest = some dc ∧
      (l.getLastD ⟨prev, t⟩).time_cost = dc.2
  | [], prev, pitch, t, l => by
    intro h
    simp only [calcTimingAux, Option.some.injEq] at h
    subst h
    exact ⟨rfl, (pitch, t), rfl, rfl⟩
  | q :: rest, prev, pitch, t, l => by
    intro h
    simp only [calcTimingAux, Option.bind_eq_bind, Option.pure_def, Option.bind_eq_some,
      Option.some.injEq] at h
    rcases h with ⟨d, hd, tl, htl, hl⟩
    subst hl
    have harg : (if d ≠ pitch then t + TURN_COST else t) + MOVE_COST =
        t + MOVE_COST + if d ≠ pitch then TURN_COST else 0 := by split <;> ring
    rw [harg] at htl
    have ih := calcTimingAux_walk rest q d _ tl htl
    rcases ih with ⟨hpos, dc, hw, hlast⟩
    refine ⟨by simp [hpos], dc, ?_, ?_⟩
    · simp only [pathWalk, Option.bind_eq_bind, hd, Option.some_bind]
      exact hw
    · cases tl with
      | nil =>
        simp only [List.getLastD] at hlast ⊢
        rw [harg]
        simpa using hlast
      | cons u us =>
        simpa [List.getLastD_cons] using hlast

/-- Conversely, a successful walk means the timing computation succeeds. -/
lemma walk_calcTimingAux :
    ∀ (rest : List PointEx) (prev : PointEx) (pitch : Direction) (t : Int) dc,
    pathWalk prev pitch t rest = some dc →
    ∃ l, calcTimingAux prev pitch t rest = some l
  | [], _, _, _, _ => fun _ => ⟨[], rfl⟩
  | q :: rest, prev, pitch, t, dc => by
    intro h
    simp only [pathWalk, Option.bind_eq_bind, Option.bind_eq_some] at h
    rcases h with ⟨d, hd, hw⟩
    rcases walk_calcTimingAux rest q d (t + MOVE_COST + if d ≠ pitch then TURN_COST else 0)
      dc hw with ⟨l, hl⟩
    have harg : (if d ≠ pitch then t + TURN_COST else t) + MOVE_COST =
        t + MOVE_COST + if d ≠ pitch then TURN_COST else 0 := by split <;> ring
    refine ⟨PathTimePoint.mk q ((if d ≠ pitch then t + TURN_COST else t) + MOVE_COST) :: l, ?_⟩
    simp only [calcTimingAux, Option.bind_eq_bind, hd, Option.some_bind, harg, hl]
    rfl

/-- Invariant of every frontier entry of the A* search started at `start`
with orientation `o0`: the stored path starts at `start`, ends at the
stored position, is a 4-adjacent chain, stays in bounds and off the
obstacles after its first point, and its walk cost and final orientation
are the stored `cost` and `orientation`. -/
structure NodeInv (size : Int × Int) (obstacles : List PointEx) (start : PointEx)
    (o0 : Direction) (node : AStarNode) : Prop where
  head : node.path.head? = some start
  last : node.path.getLast? = some node.pos
  chain : node.path.Chain' (fun p q => p.is_neighbour q = true)
  tail_ok : ∀ p ∈ node.path.tail,
    (1 ≤ p.x ∧ p.x ≤ size.1 ∧ 1 ≤ p.y ∧ p.y ≤ size.2) ∧ p ∉ obstacles
  walk : pathWalk start o0 0 node.path.tail = some (node.orientation, node.cost)

lemma nodeInv_init (size : Int × Int) (obstacles : List PointEx) (start : PointEx)
    (o0 : Direction) (pr : Int) :
    NodeInv size obstacles start o0 (AStarNode.mk pr 0 start o0 [start]) := by
  refine ⟨rfl, rfl, ?_, ?_, rfl⟩
  · simp
  · intro p hp
    simp at hp

/-- Adjacency implies the pitch computation succeeds. -/
lemma is_neighbour_pitch {p q : PointEx} (h : p.is_neighbour q = true) :
    ∃ d, p.get_pitch_to_neighbour q = some d := by
  simp only [PointEx.is_neighbour, Bool.or_eq_true, Bool.and_eq_true, beq_iff_eq,
    decide_eq_true_eq] at h
  simp only [PointEx.get_pitch_to_neighbour]
  rcases h with ⟨hx, hy | hy⟩ | ⟨hy, hx | hx⟩
  · exact ⟨.DOWN, by rw [if_neg (by omega), if_pos (by omega), if_neg (by omega),
      if_pos (by omega)]⟩
  · exact ⟨.UP, by rw [if_neg (by omega), if_pos (by omega), if_pos (by omega)]⟩
  · exact ⟨.LEFT, by rw [if_pos (by omega), if_neg (by omega), if_pos (by omega)]⟩
  · exact ⟨.RIGHT, by rw [if_pos (by omega), if_pos (by omega)]⟩

lemma is_neighbour_of_mem_neighbours {p q : PointEx} (h : q ∈ p.neighbours) :
    p.is_neighbour q = true := by
  simp only [PointEx.neighbours, PointEx.left_neighbour, PointEx.right_neighbour,
    PointEx.up_neighbour, PointEx.down_neighbour, List.mem_cons, List.not_mem_nil,
    or_false] at h
  simp only [PointEx.is_neighbour, Bool.or_eq_true, Bool.and_eq_true, beq_iff_eq]
  rcases h with rfl | rfl | rfl | rfl <;> (dsimp only; omega)

lemma getLast?_cons_getLastD (a : α) (l : List α) :
    (a :: l).getLast? = some (l.getLastD a) := by
  induction l generalizing a with
  | nil => rfl
  | cons b bs ih => rw [List.getLast?_cons_cons, ih b, List.getLastD_cons]

/-- Frontier-invariant preservation along one `get_neighbors` expansion. -/
lemma nodeInv_expand {size : Int × Int} {obstacles : List PointEx} {start : PointEx}
    {o0 : Direction} {node : AStarNode}
    (hinv : NodeInv size obstacles start o0 node)
    {np : PointEx} {nd : Direction} {mc : Int}
    (hmem : (np, nd, mc) ∈ get_neighbors size obstacles node.pos node.orientation)
    (pr : Int) :
    NodeInv size obstacles start o0
      (AStarNode.mk pr (node.cost + mc) np nd (node.path ++ [np])) := by
  obtain ⟨hbounds, hobs, hpitch, hnbr, hmc⟩ := mem_get_neighbors hmem
  obtain ⟨p0, tl, hpath0⟩ : ∃ p0 tl, node.path = p0 :: tl := by
    cases hp : node.path with
    | nil =>
      have h1 := hinv.head
      rw [hp] at h1
      exact absurd h1 (by simp)
    | cons a l => exact ⟨a, l, rfl⟩
  have hp0 : p0 = start := by
    have h1 := hinv.head
    rw [hpath0] at h1
    simpa using h1
  have hpath : node.path = start :: tl := by rw [hpath0, hp0]
  have hlastpt : lastPoint start tl = node.pos := by
    have h1 := hinv.last
    rw [hpath, getLast?_cons_getLastD] at h1
    simpa [lastPoint] using h1
  have hnbr2 : node.pos.is_neighbour np = true := is_neighbour_of_mem_neighbours hnbr
  constructor
  · rw [hpath]
    simp
  · simp
  · have hch := hinv.chain
    refine List.chain'_append.mpr ⟨hch, by simp, ?_⟩
    intro x hx y hy
    have h1 := hinv.last
    rw [h1] at hx
    have hx2 : node.pos = x := by simpa using hx
    have hy2 : np = y := by simpa using hy
    rw [← hx2, ← hy2]
    exact hnbr2
  · intro p hp
    rw [hpath] at hp
    simp only [List.cons_append, List.tail_cons, List.mem_append, List.mem_singleton] at hp
    rcases hp with hp | rfl
    · have h1 := hinv.tail_ok p
      rw [hpath] at h1
      exact h1 (by simpa using hp)
    · exact ⟨hbounds, hobs⟩
  · rw [hpath]
    simp only [List.cons_append, List.tail_cons]
    rw [pathWalk_append np tl start o0 0]
    have hw := hinv.walk
    rw [hpath] at hw
    simp only [List.tail_cons] at hw
    rw [hw, hlastpt]
    simp only [Option.some_bind, hpitch, Option.map_some', Option.some.injEq, Prod.mk.injEq,
      hmc]
    exact ⟨trivial, by ring⟩

lemma dequeueMin_subset :
    ∀ (l : List PQEntry) (e : PQEntry) (rest : List PQEntry),
    dequeueMin l = some (e, rest) → e ∈ l ∧ ∀ f ∈ rest, f ∈ l
  | [], _, _, h => by simp [dequeueMin] at h
  | a :: as, e, rest, h => by
    simp only [dequeueMin] at h
    cases hm : dequeueMin as with
    | none =>
      rw [hm] at h
      obtain ⟨he, hrest⟩ : a = e ∧ [] = rest := by
        simpa using h
      subst he
      subst hrest
      exact ⟨List.mem_cons_self a as, by simp⟩
    | some p =>
      rw [hm] at h
      obtain ⟨m, r2⟩ := p
      have ih := dequeueMin_subset as m r2 hm
      simp only at h
      split at h
      · obtain ⟨he, hrest⟩ : m = e ∧ a :: r2 = rest := by simpa using h
        subst he
        subst hrest
        refine ⟨List.mem_cons_of_mem a ih.1, ?_⟩
        intro f hf
        rcases List.mem_cons.mp hf with rfl | hf
        · exact List.mem_cons_self f as
        · exact List.mem_cons_of_mem a (ih.2 f hf)
      · obtain ⟨he, hrest⟩ : a = e ∧ as = rest := by simpa using h
        subst he
        subst hrest
        exact ⟨List.mem_cons_self _ _, fun f hf => List.mem_cons_of_mem _ hf⟩

/-- Every entry of the expanded frontier is an old entry or a
`get_neighbors` expansion of the popped node. -/
lemma mem_expandNode {size : Int × Int} {obstacles : List PointEx} {goal : PointEx}
    {node : AStarNode} {visited : List (PointEx × Direction)} :
    ∀ (frontier : List PQEntry) (idx : Nat) (e : PQEntry),
    e ∈ (expandNode size obstacles goal node visited frontier idx).1 →
    e ∈ frontier ∨ ∃ nbr ∈ get_neighbors size obstacles node.pos node.orientation,
      e.2.2 = AStarNode.mk (node.cost + nbr.2.2 + manhattan nbr.1 goal)
        (node.cost + nbr.2.2) nbr.1 nbr.2.1 (node.path ++ [nbr.1]) := by
  have hgen : ∀ (nbrs : List (PointEx × Direction × Int)) (acc : List PQEntry × Nat)
      (e : PQEntry),
      e ∈ (nbrs.foldl (fun acc nbr =>
        if (nbr.1, nbr.2.1) ∈ visited then acc
        else (acc.1 ++ [(node.cost + nbr.2.2 + manhattan nbr.1 goal, acc.2,
            AStarNode.mk (node.cost + nbr.2.2 + manhattan nbr.1 goal)
              (node.cost + nbr.2.2) nbr.1 nbr.2.1 (node.path ++ [nbr.1]))],
          acc.2 + 1)) acc).1 →
      e ∈ acc.1 ∨ ∃ nbr ∈ nbrs,
        e.2.2 = AStarNode.mk (node.cost + nbr.2.2 + manhattan nbr.1 goal)
          (node.cost + nbr.2.2) nbr.1 nbr.2.1 (node.path ++ [nbr.1]) := by
    intro nbrs
    induction nbrs with
    | nil => intro acc e h; exact Or.inl h
    | cons nbr rest ih =>
      intro acc e h
      rw [List.foldl_cons] at h
      rcases ih _ e h with h2 | ⟨nbr2, hn2, he2⟩
      · split at h2
        · exact Or.inl h2
        · rcases List.mem_append.mp h2 with h3 | h3
          · exact Or.inl h3
          · refine Or.inr ⟨nbr, List.mem_cons_self nbr rest, ?_⟩
            have h4 : e = (node.cost + nbr.2.2 + manhattan nbr.1 goal, acc.2,
                AStarNode.mk (node.cost + nbr.2.2 + manhattan nbr.1 goal)
                  (node.cost + nbr.2.2) nbr.1 nbr.2.1 (node.path ++ [nbr.1])) := by
              simpa using h3
            rw [h4]
      · exact Or.inr ⟨nbr2, List.mem_cons_of_mem nbr hn2, he2⟩
  intro frontier idx e h
  rw [expandNode] at h
  exact hgen _ (frontier, idx) e h

/-- Soundness of the search loop: a returned node satisfies the invariant
and sits on the goal. -/
lemma aStarLoop_sound {size : Int × Int} {goal : PointEx} {obstacles : List PointEx}
    {start : PointEx} {o0 : Direction} :
    ∀ (fuel : Nat) (frontier : List PQEntry) (idx : Nat)
      (visited : List (PointEx × Direction)) (node : AStarNode),
    (∀ e ∈ frontier, NodeInv size obstacles start o0 e.2.2) →
    aStarLoop size goal obstacles fuel frontier idx visited = some node →
    NodeInv size obstacles start o0 node ∧ node.pos = goal
  | 0, _, _, _, _, _, h => by simp [aStarLoop] at h
  | fuel + 1, frontier, idx, visited, node, hfr, h => by
    rw [aStarLoop] at h
    cases hd : dequeueMin frontier with
    | none => rw [hd] at h; exact absurd h (by simp)
    | some p =>
      rw [hd] at h
      obtain ⟨e, rest⟩ := p
      have hsub := dequeueMin_subset frontier e rest hd
      have hinv_e := hfr e hsub.1
      simp only at h
      split_ifs at h with hgoal hvis
      · obtain hne : e.2.2 = node := by simpa using h
        subst hne
        exact ⟨hinv_e, hgoal⟩
      · exact aStarLoop_sound fuel rest idx visited node
          (fun f hf => hfr f (hsub.2 f hf)) h
      · refine aStarLoop_sound fuel _ _ _ node ?_ h
        intro f hf
        rcases mem_expandNode rest idx f hf with hf2 | ⟨nbr, hn, he⟩
        · exact hfr f (hsub.2 f hf2)
        · rw [he]
          exact nodeInv_expand hinv_e (by
            obtain ⟨a, b, c⟩ := nbr
            exact hn) _

/-- The A* loop returns nothing on an empty frontier. -/
lemma aStarLoop_nil (size : Int × Int) (goal : PointEx) (obstacles : List PointEx) :
    ∀ (fuel : Nat) (idx : Nat) (visited : List (PointEx × Direction)),
    aStarLoop size goal obstacles fuel [] idx visited = none
  | 0, _, _ => rfl
  | _ + 1, _, _ => rfl

/-- Soundness of the full search. -/
lemma a_star_full_sound {start goal : PointEx} {orientation : Direction}
    {obstacles : List PointEx} {grid_size : Option (Int × Int)} {node : AStarNode}
    (h : a_star_full start goal orientation obstacles grid_size = some node) :
    NodeInv (grid_size.getD GRID_SIZE) obstacles start orientation node ∧
      node.pos = goal := by
  rw [a_star_full] at h
  refine aStarLoop_sound _ _ _ _ _ ?_ h
  intro e he
  have he2 : e = (manhattan start goal, 0,
      AStarNode.mk (manhattan start goal) 0 start orientation [start]) := by
    simpa using he
  rw [he2]
  exact nodeInv_init _ _ _ _ _

/-- A successful search returns a path of the shape `start :: tail`. -/
lemma a_star_full_shape {start goal : PointEx} {orientation : Direction}
    {obstacles : List PointEx} {grid_size : Option (Int × Int)} {node : AStarNode}
    (h : a_star_full start goal orientation obstacles grid_size = some node) :
    ∃ tl, node.path = start :: tl := by
  obtain ⟨hinv, _⟩ := a_star_full_sound h
  cases hp : node.path with
  | nil =>
    have h1 := hinv.head
    rw [hp] at h1
    exact absurd h1 (by simp)
  | cons a l =>
    have h1 := hinv.head
    rw [hp] at h1
    have ha : a = start := by simpa using h1
    exact ⟨l, by rw [ha]⟩

/-- C6: the planner returns either the empty path, or a non-empty path that
starts at `start`, ends at `goal`, steps only between 4-adjacent cells, and
after its first point stays inside the `[1..width] × [1..height]` box and
off the obstacle set; and whenever the frontier is exhausted the loop
returns nothing (hence the empty path). -/
theorem agv_c6 (start goal : PointEx) (o : Direction) (obstacles : List PointEx)
    (gsz : Option (Int × Int)) :
    (a_star_with_orientation start goal o obstacles gsz = [] ∨
      ((a_star_with_orientation start goal o obstacles gsz).head? = some start ∧
       (a_star_with_orientation start goal o obstacles gsz).getLast? = some goal ∧
       (a_star_with_orientation start goal o obstacles gsz).Chain'
         (fun p q => p.is_neighbour q = true) ∧
       ∀ p ∈ (a_star_with_orientation start goal o obstacles gsz).tail,
         (1 ≤ p.x ∧ p.x ≤ (gsz.getD GRID_SIZE).1 ∧
          1 ≤ p.y ∧ p.y ≤ (gsz.getD GRID_SIZE).2) ∧ p ∉ obstacles)) ∧
    (∀ (fuel idx : Nat) (visited : List (PointEx × Direction)),
      aStarLoop (gsz.getD GRID_SIZE) goal obstacles fuel [] idx visited = none) := by
  constructor
  · cases h : a_star_full start goal o obstacles gsz with
    | none => exact Or.inl (by rw [a_star_with_orientation, h])
    | some node =>
      obtain ⟨hinv, hgoal⟩ := a_star_full_sound h
      have hres : a_star_with_orientation start goal o obstacles gsz = node.path := by
        rw [a_star_with_orientation, h]
      refine Or.inr ⟨?_, ?_, ?_, ?_⟩ <;> rw [hres]
      · exact hinv.head
      · rw [hinv.last, hgoal]
      · exact hinv.chain
      · exact hinv.tail_ok
  · intro fuel idx visited
    exact aStarLoop_nil _ _ _ fuel idx visited

/-- C5: for a successful search (non-empty returned path), the path timing
of the returned path under the same initial orientation starts at
cumulative time 0 and ends exactly at the g-cost the planner accumulated
for that path. -/
theorem agv_c5 (start goal : PointEx) (o : Direction) (obstacles : List PointEx)
    (gsz : Option (Int × Int)) (node : AStarNode)
    (h : a_star_full start goal o obstacles gsz = some node) :
    a_star_with_orientation start goal o obstacles gsz = node.path ∧
    ∃ l, calculate_path_timing node.path o = some l ∧
      l.head? = some (PathTimePoint.mk start 0) ∧
      (l.getLast?.map (·.time_cost)) = some node.cost := by
  obtain ⟨hinv, _⟩ := a_star_full_sound h
  obtain ⟨tl, hpath⟩ := a_star_full_shape h
  refine ⟨by rw [a_star_with_orientation, h], ?_⟩
  have hw := hinv.walk
  rw [hpath] at hw
  simp only [List.tail_cons] at hw
  obtain ⟨l0, hl0⟩ := walk_calcTimingAux tl start o 0 _ hw
  obtain ⟨_, dc, hwalk2, hlast⟩ := calcTimingAux_walk tl start o 0 l0 hl0
  have hdc : dc = (node.orientation, node.cost) := by
    rw [hwalk2] at hw
    simpa using hw
  refine ⟨PathTimePoint.mk start 0 :: l0, ?_, rfl, ?_⟩
  · rw [hpath]
    simp only [calculate_path_timing, Option.bind_eq_bind, hl0, Option.some_bind]
    rfl
  · rw [getLast?_cons_getLastD]
    simp only [Option.map_some', Option.some.injEq]
    rw [hlast, hdc]

/-- C5 witness: a one-step search with cost 1. -/
theorem agv_c5_witness :
    a_star_full (PointEx.mk 1 1) (PointEx.mk 2 1) Direction.RIGHT [] none =
      some (AStarNode.mk 1 1 (PointEx.mk 2 1) Direction.RIGHT
        [PointEx.mk 1 1, PointEx.mk 2 1]) ∧
    (∃ l, calculate_path_timing
        (AStarNode.mk 1 1 (PointEx.mk 2 1) Direction.RIGHT
          [PointEx.mk 1 1, PointEx.mk 2 1]).path Direction.RIGHT = some l ∧
      l.head? = some (PathTimePoint.mk (PointEx.mk 1 1) 0) ∧
      (l.getLast?.map (·.time_cost)) = some 1) :=
  ⟨by decide, (agv_c5 (PointEx.mk 1 1) (PointEx.mk 2 1) Direction.RIGHT [] none
    (AStarNode.mk 1 1 (PointEx.mk 2 1) Direction.RIGHT
      [PointEx.mk 1 1, PointEx.mk 2 1]) (by decide)).2⟩

/-- C7 counterexample: planning from an obstacle cell onto itself returns
the singleton path, not the empty path, even though the goal is in the
obstacle set. -/
theorem agv_c7_cex :
    a_star_with_orientation (PointEx.mk 5 5) (PointEx.mk 5 5) Direction.RIGHT
      [PointEx.mk 5 5] none = [PointEx.mk 5 5] ∧
    (PointEx.mk 5 5) ∈ [PointEx.mk 5 5] := ⟨by decide, by decide⟩

/-- C7 amended: if the goal is in the obstacle set and differs from the
start, the planner returns the empty path (the goal is never generated, so
the frontier drains without popping it). -/
theorem agv_c7_amended (start goal : PointEx) (o : Direction) (obstacles : List PointEx)
    (gsz : Option (Int × Int)) (hobs : goal ∈ obstacles) (hne : start ≠ goal) :
    a_star_with_orientation start goal o obstacles gsz = [] := by
  cases h : a_star_full start goal o obstacles gsz with
  | none => rw [a_star_with_orientation, h]
  | some node =>
    exfalso
    obtain ⟨hinv, hgoal⟩ := a_star_full_sound h
    obtain ⟨tl, hpath⟩ := a_star_full_shape h
    cases tl with
    | nil =>
      have h1 := hinv.last
      rw [hpath] at h1
      have : start = node.pos := by simpa using h1
      exact hne (this.trans hgoal)
    | cons u us =>
      have h1 := hinv.last
      rw [hpath, getLast?_cons_getLastD] at h1
      have h2 : (u :: us).getLastD start = node.pos := by simpa using h1
      have h3 : node.pos ∈ u :: us := by
        rw [← h2, List.getLastD_cons]
        exact List.getLastD_mem_cons us u
      have h4 := hinv.tail_ok node.pos (by rw [hpath]; simpa using h3)
      rw [hgoal] at h4
      exact h4.2 hobs

/-- C7 amended witness: an enclosed start next to an obstructed goal. -/
theorem agv_c7_amended_witness :
    (PointEx.mk 3 3) ∈ [PointEx.mk 3 3] ∧ PointEx.mk 1 1 ≠ PointEx.mk 3 3 ∧
    a_star_with_orientation (PointEx.mk 1 1) (PointEx.mk 3 3) Direction.RIGHT
      [PointEx.mk 3 3] none = [] :=
  ⟨by decide, by decide,
    agv_c7_amended (PointEx.mk 1 1) (PointEx.mk 3 3) Direction.RIGHT
      [PointEx.mk 3 3] none (by decide) (by decide)⟩

end PathPlanning

/-! ## Infrastructure for the scheduler-tick invariants -/

lemma set_of_get? {l : List α} : ∀ {i : Nat} {b : α}, l.get? i = some b → l.set i b = l := by
  induction l with
  | nil => intro i b h; simp at h
  | cons a as ih =>
    intro i b h
    cases i with
    | zero =>
      simp only [List.get?] at h
      obtain rfl : a = b := by simpa using h
      simp
    | succ n =>
      simp only [List.get?] at h
      simp [ih h]

lemma map_set_same {l : List α} {i : Nat} {a a2 : α} (f : α → β)
    (hget : l.get? i = some a) (hf : f a2 = f a) :
    (l.set i a2).map f = l.map f := by
  rw [List.map_set, hf]
  apply set_of_get?
  rw [List.get?_eq_getElem?, List.getElem?_map, ← List.get?_eq_getElem?, hget]
  rfl

/-- Positions of the AGVs, in list order. -/
def positionsOf (st : SchedState) : List PointEx := st.agvs.map Agv.position

lemma stepPres_refl (st : SchedState) : StepPres st st := ⟨rfl, rfl, rfl, rfl⟩

lemma stepPres_trans {s1 s2 s3 : SchedState} (h1 : StepPres s1 s2) (h2 : StepPres s2 s3) :
    StepPres s1 s3 :=
  ⟨h2.1.trans h1.1, h2.2.1.trans h1.2.1, h2.2.2.1.trans h1.2.2.1, h2.2.2.2.trans h1.2.2.2⟩

lemma phasePres_refl (st : SchedState) : PhasePres st st := ⟨stepPres_refl st, id⟩

lemma phasePres_trans {s1 s2 s3 : SchedState} (h1 : PhasePres s1 s2) (h2 : PhasePres s2 s3) :
    PhasePres s1 s3 := ⟨stepPres_trans h1.1 h2.1, fun g => h2.2 (h1.2 g)⟩

lemma distinct_of_positions_eq {st st2 : SchedState}
    (hpos : positionsOf st2 = positionsOf st) (h : DistinctPositions st) :
    DistinctPositions st2 := by
  intro i j hij a b ha hb
  have hga : (positionsOf st2).get? i = some a.position := by
    rw [positionsOf, List.get?_eq_getElem?, List.getElem?_map, ← List.get?_eq_getElem?, ha]
    rfl
  have hgb : (positionsOf st2).get? j = some b.position := by
    rw [positionsOf, List.get?_eq_getElem?, List.getElem?_map, ← List.get?_eq_getElem?, hb]
    rfl
  rw [hpos] at hga hgb
  rw [positionsOf, List.get?_eq_getElem?, List.getElem?_map] at hga hgb
  rcases ha2 : st.agvs[i]? with _ | a2
  · rw [ha2] at hga; exact absurd hga (by simp)
  rcases hb2 : st.agvs[j]? with _ | b2
  · rw [hb2] at hgb; exact absurd hgb (by simp)
  rw [ha2] at hga
  rw [hb2] at hgb
  have hpa : a2.position = a.position := by simpa using hga
  have hpb : b2.position = b.position := by simpa using hgb
  rw [← hpa, ← hpb]
  exact h i j hij a2 b2 (by rw [List.get?_eq_getElem?, ha2]) (by rw [List.get?_eq_getElem?, hb2])

lemma endsInFixed_of_stepPres {st st2 : SchedState} (hp : StepPres st st2)
    (h : EndsInFixed st) : EndsInFixed st2 := by
  intro t ht
  have hmem : t.end_position ∈ st2.tasks.map (·.end_position) := List.mem_map_of_mem _ ht
  rw [hp.2.1] at hmem
  rw [hp.1]
  rcases List.mem_map.mp hmem with ⟨t2, ht2, he⟩
  rw [← he]
  exact h t2 ht2

/-- A state whose AGV list is updated without moving anyone and whose task
list is updated without touching a delivery cell satisfies the phase
contract. -/
lemma phasePres_of_eq {st st2 : SchedState}
    (hfix : st2.fixed_map_obstacles = st.fixed_map_obstacles)
    (hends : st2.tasks.map (·.end_position) = st.tasks.map (·.end_position))
    (hts : st2.timestamp = st.timestamp)
    (hpos : positionsOf st2 = positionsOf st) :
    PhasePres st st2 := by
  have hlen : st2.agvs.length = st.agvs.length := by
    have := congrArg List.length hpos
    simpa [positionsOf] using this
  have hsp : StepPres st st2 := ⟨hfix, hends, hlen, hts⟩
  exact ⟨hsp, fun g => ⟨distinct_of_positions_eq hpos g.1, endsInFixed_of_stepPres hsp g.2⟩⟩

/-- Updating AGV `i` with a record at the same position. -/
lemma phasePres_set_agv {st : SchedState} {i : Nat} {agv agv2 : Agv}
    (hget : st.agvs.get? i = some agv) (hpos : agv2.position = agv.position) :
    PhasePres st { st with agvs := st.agvs.set i agv2 } := by
  refine phasePres_of_eq rfl rfl rfl ?_
  exact map_set_same Agv.position hget (by rw [hpos])

/-- Updating task `ti` with a record at the same delivery cell. -/
lemma phasePres_set_task {st : SchedState} {ti : Nat} {t t2 : TaskEx}
    (hget : st.tasks.get? ti = some t) (hend : t2.end_position = t.end_position) :
    PhasePres st { st with tasks := st.tasks.set ti t2 } := by
  have hs : StepPres st { st with tasks := st.tasks.set ti t2 } :=
    ⟨rfl, map_set_same (·.end_position) hget (by simpa using hend), rfl, rfl⟩
  exact ⟨hs, fun g => ⟨g.1, endsInFixed_of_stepPres hs g.2⟩⟩

/-- Generic fold lemma: if every step of a monadic fold satisfies the phase
contract from its input state to its output state, so does the fold. -/
lemma foldlM_phasePres {σ γ : Type} (proj : σ → SchedState) (f : σ → γ → Option σ) :
    ∀ (l : List γ) (s0 s1 : σ),
    (∀ s x s2, x ∈ l → f s x = some s2 → PhasePres (proj s) (proj s2)) →
    l.foldlM f s0 = some s1 → PhasePres (proj s0) (proj s1)
  | [], s0, s1, _, h => by
    obtain hs : s0 = s1 := by simpa [List.foldlM] using h
    rw [hs]
    exact phasePres_refl _
  | x :: xs, s0, s1, hstep, h => by
    simp only [List.foldlM_cons, Option.bind_eq_bind, Option.bind_eq_some] at h
    rcases h with ⟨s2, hs2, hrest⟩
    exact phasePres_trans (hstep s0 x s2 (List.mem_cons_self _ _) hs2)
      (foldlM_phasePres proj f xs s2 s1
        (fun s y s3 hy => hstep s y s3 (List.mem_cons_of_mem _ hy)) hrest)

lemma mem_neighbours_of_is_neighbour {p q : PointEx} (h : p.is_neighbour q = true) :
    q ∈ p.neighbours := by
  simp only [PointEx.is_neighbour, Bool.or_eq_true, Bool.and_eq_true, beq_iff_eq] at h
  refine PathPlanning.mem_neighbours_of_delta p q ?_
  omega

/-- The second point of a non-trivial planner result is an unobstructed
4-neighbour of the start cell. -/
lemma a_star_second {start goal : PointEx} {o : Direction} {obstacles : List PointEx}
    {gsz : Option (Int × Int)} {pth : List PointEx} {p1 : PointEx}
    (h : PathPlanning.a_star_with_orientation start goal o obstacles gsz = pth)
    (hp1 : pth.get? 1 = some p1) :
    p1 ∈ start.neighbours ∧ p1 ∉ obstacles := by
  cases hfull : PathPlanning.a_star_full start goal o obstacles gsz with
  | none =>
    rw [PathPlanning.a_star_with_orientation, hfull] at h
    rw [← h] at hp1
    exact absurd hp1 (by simp)
  | some node =>
    rw [PathPlanning.a_star_with_orientation, hfull] at h
    obtain ⟨hinv, _⟩ := PathPlanning.a_star_full_sound hfull
    obtain ⟨tl, hpath⟩ := PathPlanning.a_star_full_shape hfull
    have hres : pth = node.path := by rw [← h]
    rw [hres, hpath] at hp1
    cases tl with
    | nil => exact absurd hp1 (by simp)
    | cons u us =>
      have hu : u = p1 := by simpa using hp1
      have hchain := hinv.chain
      rw [hpath] at hchain
      have hadj : start.is_neighbour u = true := (List.chain'_cons.mp hchain).1
      constructor
      · rw [← hu]
        exact mem_neighbours_of_is_neighbour hadj
      · have := hinv.tail_ok u (by rw [hpath]; simp)
        rw [hu] at this
        exact this.2

/-- The occupied cells adjacent to AGV `i` are all in `_get_obstacles`. -/
lemma occupied_mem_getObstacles (st : SchedState) (i : Nat) (agv : Agv) {q : PointEx}
    (hq : q ∈ agv.position.neighbours) (hocc : q ∈ st.agvs.map Agv.position) :
    q ∈ getObstacles st i agv := by
  rw [getObstacles]
  refine List.mem_append.mpr (Or.inl ?_)
  refine List.mem_filter.mpr ⟨hq, ?_⟩
  simpa using hocc

lemma removeFirst_of_mem [DecidableEq α] {a : α} :
    ∀ {l : List α}, a ∈ l → ∃ r, removeFirst a l = some r
  | [], h => absurd h (by simp)
  | b :: bs, h => by
    rw [removeFirst]
    by_cases hba : b = a
    · exact ⟨bs, by simp [hba]⟩
    · rcases removeFirst_of_mem (l := bs) (by
        rcases List.mem_cons.mp h with rfl | h2
        · exact absurd rfl hba
        · exact h2) with ⟨r, hr⟩
      exact ⟨b :: r, by simp [hba, hr]⟩

/-- Removing an element of the left part of an append leaves the right part
intact. -/
lemma mem_removeFirst_right [DecidableEq α] {a : α} {q : α} :
    ∀ {l1 l2 r : List α}, a ∈ l1 → removeFirst a (l1 ++ l2) = some r → q ∈ l2 → q ∈ r
  | [], _, _, hmem, _, _ => absurd hmem (by simp)
  | b :: bs, l2, r, hmem, h, hq => by
    rw [List.cons_append, removeFirst] at h
    by_cases hba : b = a
    · rw [if_pos hba] at h
      obtain hr : bs ++ l2 = r := by simpa using h
      rw [← hr]
      exact List.mem_append_right bs hq
    · rw [if_neg hba] at h
      rcases hrec : removeFirst a (bs ++ l2) with _ | r2
      · rw [hrec] at h
        exact absurd h (by simp)
      · rw [hrec] at h
        obtain hr : b :: r2 = r := by simpa using h
        have hmem2 : a ∈ bs := by
          rcases List.mem_cons.mp hmem with rfl | h2
          · exact absurd rfl hba
          · exact h2
        rw [← hr]
        exact List.mem_cons_of_mem b (mem_removeFirst_right hmem2 hrec hq)

/-- The timing of a path visits exactly the path's points. -/
lemma timing_positions {path : List PointEx} {pitch : Direction}
    {tps : List PathTimePoint}
    (h : PathPlanning.calculate_path_timing path pitch = some tps) :
    tps.map (·.position) = path := by
  cases path with
  | nil =>
    obtain hr : [] = tps := by simpa [PathPlanning.calculate_path_timing] using h
    rw [← hr]
    rfl
  | cons p0 rest =>
    rw [PathPlanning.calculate_path_timing] at h
    simp only [Option.bind_eq_bind, Option.pure_def, Option.bind_eq_some,
      Option.some.injEq] at h
    rcases h with ⟨tl, htl, hl⟩
    obtain ⟨hpos, _⟩ := PathPlanning.calcTimingAux_walk rest p0 pitch 0 tl htl
    rw [← hl]
    simp [hpos]

/-- Moving AGV `i` onto a cell no AGV occupies keeps the positions
pairwise distinct. -/
lemma distinct_after_set {st : SchedState} {i : Nat} {agv2 : Agv}
    (h : DistinctPositions st)
    (hsafe : ∀ j b, st.agvs.get? j = some b → b.position ≠ agv2.position) :
    DistinctPositions { st with agvs := st.agvs.set i agv2 } := by
  intro j k hjk a b ha hb
  simp only [List.get?_eq_getElem?, List.getElem?_set] at ha hb
  by_cases hij : i = j
  · rw [if_pos hij] at ha
    by_cases hlen : i < st.agvs.length
    · rw [if_pos hlen] at ha
      obtain rfl : agv2 = a := by simpa using ha
      have hik : ¬ i = k := fun hik => hjk (hij ▸ hik)
      rw [if_neg hik] at hb
      exact (hsafe k b (by rw [List.get?_eq_getElem?]; exact hb)).symm
    · rw [if_neg hlen] at ha
      exact absurd ha (by simp)
  · rw [if_neg hij] at ha
    by_cases hik : i = k
    · rw [if_pos hik] at hb
      by_cases hlen : i < st.agvs.length
      · rw [if_pos hlen] at hb
        obtain rfl : agv2 = b := by simpa using hb
        exact hsafe j a (by rw [List.get?_eq_getElem?]; exact ha)
      · rw [if_neg hlen] at hb
        exact absurd hb (by simp)
    · rw [if_neg hik] at hb
      exact h j k hjk a b (by rw [List.get?_eq_getElem?]; exact ha)
        (by rw [List.get?_eq_getElem?]; exact hb)

lemma safe_transfer {st st2 : SchedState} (hpos : positionsOf st2 = positionsOf st)
    {p : PointEx} (hs : ∀ j b, st.agvs.get? j = some b → b.position ≠ p) :
    ∀ j b, st2.agvs.get? j = some b → b.position ≠ p := by
  intro j b hb
  have hgb : (positionsOf st2).get? j = some b.position := by
    rw [positionsOf, List.get?_eq_getElem?, List.getElem?_map, ← List.get?_eq_getElem?, hb]
    rfl
  rw [hpos, positionsOf, List.get?_eq_getElem?, List.getElem?_map] at hgb
  rcases hb2 : st.agvs[j]? with _ | b2
  · rw [hb2] at hgb; exact absurd hgb (by simp)
  · rw [hb2] at hgb
    have : b2.position = b.position := by simpa using hgb
    rw [← this]
    exact hs j b2 (by rw [List.get?_eq_getElem?, hb2])

/-- Core safety of every scheduler move: when the obstacle list handed to
the planner contains every occupied cell adjacent to the moving AGV, the
second point of the returned plan is occupied by no AGV of the state. -/
lemma planned_move_safe {st : SchedState} {agv : Agv} {goal : PointEx}
    {listO : List PointEx} {pth : List PointEx} {p1 : PointEx}
    (hobs : ∀ q, q ∈ agv.position.neighbours → q ∈ st.agvs.map Agv.position → q ∈ listO)
    (hpath : PathPlanning.a_star_with_orientation agv.position goal agv.pitch listO
      none = pth)
    (hp1 : pth.get? 1 = some p1) :
    ∀ j b, st.agvs.get? j = some b → b.position ≠ p1 := by
  obtain ⟨hnbr, hnotin⟩ := a_star_second hpath hp1
  intro j b hb hpos
  have hocc : p1 ∈ st.agvs.map Agv.position := by
    rw [← hpos]
    exact List.mem_map_of_mem _ (List.get?_mem hb)
  exact hnotin (hobs p1 hnbr hocc)

lemma get?_set_self {l : List α} {i : Nat} {a b : α} (h : l.get? i = some b) :
    (l.set i a).get? i = some a := by
  have hlen : i < l.length := by
    rw [List.get?_eq_getElem?] at h
    exact (List.getElem?_eq_some.mp h).1
  rw [List.get?_eq_getElem?, List.getElem?_set, if_pos rfl, if_pos hlen]

lemma unloadAgv_pres {st st2 : SchedState} {i : Nat} (h : unloadAgv st i = some st2) :
    PhasePres st st2 := by
  rw [unloadAgv] at h
  simp only [Option.bind_eq_bind, Option.bind_eq_some] at h
  rcases h with ⟨agv, hagv, h⟩
  rcases hltask : agv.loaded_task with _ | ti
  · rw [hltask] at h
    simp only [Option.pure_def, Option.some_bind, Option.some.injEq] at h
    rw [← h]
    exact phasePres_set_agv hagv rfl
  · rw [hltask] at h
    dsimp only at h
    rcases ht : st.tasks.get? ti with _ | t
    · rw [ht] at h
      simp at h
    · rw [ht] at h
      simp only [Option.some_bind, Option.pure_def, Option.some.injEq] at h
      rw [← h]
      refine phasePres_of_eq rfl ?_ rfl ?_
      · apply map_set_same (·.end_position) ht
        rfl
      · apply map_set_same Agv.position hagv
        rfl

lemma loadAgv_pres {st st2 : SchedState} {i ti : Nat} (h : loadAgv st i ti = some st2) :
    PhasePres st st2 := by
  rw [loadAgv] at h
  simp only [Option.bind_eq_bind, Option.bind_eq_some, Option.pure_def,
    Option.some.injEq] at h
  rcases h with ⟨agv, hagv, t, ht, hfin⟩
  rw [← hfin]
  refine phasePres_of_eq rfl ?_ rfl ?_
  · apply map_set_same (·.end_position) ht
    rfl
  · apply map_set_same Agv.position hagv
    rfl

lemma phaseUnload_pres {st0 st1 : SchedState} {h0 h1 : List Nat}
    (h : phaseUnload st0 h0 = some (st1, h1)) : PhasePres st0 st1 := by
  rw [phaseUnload] at h
  exact foldlM_phasePres Prod.fst _ _ _ _ (by
    intro s x s2 _ hf
    split_ifs at hf
    · obtain rfl : s = s2 := by simpa using hf
      exact phasePres_refl _
    · rcases hagv : s.1.agvs.get? x with _ | agv
      · rw [hagv] at hf; simp at hf
      · rw [hagv] at hf
        simp only [Option.bind_eq_bind, Option.some_bind] at hf
        rcases hcu : canUnload s.1 agv with _ | cu
        · rw [hcu] at hf; simp at hf
        · rw [hcu] at hf
          simp only [Option.some_bind] at hf
          split_ifs at hf
          · rcases hstU : unloadAgv s.1 x with _ | stU
            · rw [hstU] at hf; simp at hf
            · rw [hstU] at hf
              obtain rfl : (stU, s.2 ++ [x]) = s2 := by simpa using hf
              exact unloadAgv_pres hstU
          · obtain rfl : s = s2 := by simpa using hf
            exact phasePres_refl _) h

lemma phaseLoad_pres {st0 st1 : SchedState} {h0 h1 : List Nat}
    (h : phaseLoad st0 h0 = some (st1, h1)) : PhasePres st0 st1 := by
  rw [phaseLoad] at h
  exact foldlM_phasePres Prod.fst _ _ _ _ (by
    intro s x s2 _ hf
    split_ifs at hf
    · obtain rfl : s = s2 := by simpa using hf
      exact phasePres_refl _
    · rcases hagv : s.1.agvs.get? x with _ | agv
      · rw [hagv] at hf; simp at hf
      · rw [hagv] at hf
        simp only [Option.bind_eq_bind, Option.some_bind] at hf
        split_ifs at hf
        · obtain rfl : s = s2 := by simpa using hf
          exact phasePres_refl _
        · rcases hfound : findLoadTask s.1 agv.position
              ((get_sorted_pending_tasks st0.tasks).map (·.1)) with _ | found
          · rw [hfound] at hf
            simp at hf
          · rw [hfound] at hf
            simp only [Option.some_bind] at hf
            cases found with
            | none =>
              obtain rfl : s = s2 := by simpa using hf
              exact phasePres_refl _
            | some ti =>
              dsimp only at hf
              rcases hstL : loadAgv s.1 x ti with _ | stL
              · rw [hstL] at hf; simp at hf
              · rw [hstL] at hf
                obtain rfl : (stL, s.2 ++ [x]) = s2 := by simpa using hf
                exact loadAgv_pres hstL) h

lemma turn_auto_position {agv agv2 : Agv} (h : agv.turn_auto = some agv2) :
    agv2.position = agv.position := by
  rw [Agv.turn_auto] at h
  split_ifs at h
  · rcases hp1 : agv.path_time_points.get? 1 with _ | p1
    · rw [hp1] at h; simp at h
    · rw [hp1] at h
      simp only [Option.bind_eq_bind, Option.some_bind] at h
      rcases hd : agv.position.get_pitch_to_neighbour p1.position with _ | d
      · rw [hd] at h; simp at h
      · rw [hd] at h
        obtain hr : _ = agv2 := by simpa using h
        rw [← hr]
  · obtain rfl : agv = agv2 := by simpa using h
    rfl

lemma phaseTurnLoaded_pres {st0 st1 : SchedState} {h0 h1 : List Nat}
    (h : phaseTurnLoaded st0 h0 = some (st1, h1)) : PhasePres st0 st1 := by
  rw [phaseTurnLoaded] at h
  exact foldlM_phasePres Prod.fst _ _ _ _ (by
    intro s x s2 _ hf
    split_ifs at hf
    · obtain rfl : s = s2 := by simpa using hf
      exact phasePres_refl _
    · rcases hagv : s.1.agvs.get? x with _ | agv
      · rw [hagv] at hf; simp at hf
      · rw [hagv] at hf
        simp only [Option.bind_eq_bind, Option.some_bind] at hf
        split_ifs at hf
        · rcases hst : agv.should_turn with _ | stt
          · rw [hst] at hf; simp at hf
          · rw [hst] at hf
            simp only [Option.some_bind] at hf
            split_ifs at hf
            · rcases hta : agv.turn_auto with _ | agv2
              · rw [hta] at hf; simp at hf
              · rw [hta] at hf
                obtain rfl : _ = s2 := by simpa using hf
                exact phasePres_set_agv hagv (turn_auto_position hta)
            · obtain rfl : s = s2 := by simpa using hf
              exact phasePres_refl _
        · obtain rfl : s = s2 := by simpa using hf
          exact phasePres_refl _) h

/-- Moving one AGV to a cell nobody occupies (under the invariant)
satisfies the phase contract. -/
lemma phasePres_move_set {st : SchedState} {i : Nat} {agv2 : Agv}
    (hsafe : GoodState st → ∀ j b, st.agvs.get? j = some b → b.position ≠ agv2.position) :
    PhasePres st { st with agvs := st.agvs.set i agv2 } := by
  have hsp : StepPres st { st with agvs := st.agvs.set i agv2 } :=
    ⟨rfl, rfl, by simp, rfl⟩
  refine ⟨hsp, ?_⟩
  intro g
  exact ⟨distinct_after_set g.1 (hsafe g), endsInFixed_of_stepPres hsp g.2⟩

/-- Safety of the re-planned batch path: its second cell is occupied by no
AGV of the state. -/
lemma batchPlanPath_safe {st : SchedState} {is_loaded : Bool} {i : Nat} {agv : Agv}
    {current_task : TaskEx} {path : List PointEx} {p1 : PointEx}
    (hplan : batchPlanPath st is_loaded i agv current_task = some path)
    (hEnds : EndsInFixed st) (htask : current_task ∈ st.tasks)
    (hp1 : path.get? 1 = some p1) :
    ∀ j b, st.agvs.get? j = some b → b.position ≠ p1 := by
  rw [batchPlanPath] at hplan
  split_ifs at hplan
  · rw [calc_path_to_end] at hplan
    rcases hrm : removeFirst current_task.end_position
        (build_obstacles st (getObstacles st i agv)) with _ | r
    · rw [hrm] at hplan
      simp at hplan
    · rw [hrm] at hplan
      simp only [Option.bind_eq_bind, Option.some_bind, Option.pure_def,
        Option.some.injEq] at hplan
      refine planned_move_safe ?_ hplan hp1
      intro q hq hocc
      rw [build_obstacles] at hrm
      exact mem_removeFirst_right (hEnds current_task htask) hrm
        (occupied_mem_getObstacles st i agv hq hocc)
  · obtain hpath : calc_path_to_pickup st agv current_task (getObstacles st i agv) = path := by
      simpa using hplan
    rw [calc_path_to_pickup] at hpath
    refine planned_move_safe ?_ hpath hp1
    intro q hq hocc
    rw [build_obstacles]
    exact List.mem_append_right _ (occupied_mem_getObstacles st i agv hq hocc)

lemma batchTryAgv_pres {is_loaded : Bool} {temp : List (Nat × Nat)} {i : Nat}
    {st : SchedState} {handled : List Nat} {moved : List MovedItem}
    {r : SchedState × List Nat × List MovedItem × Bool}
    (h : batchTryAgv is_loaded temp i st handled moved = some r) :
    PhasePres st r.1 := by
  rw [batchTryAgv] at h
  by_cases hmem : i ∈ handled
  · rw [if_pos hmem] at h
    obtain rfl : (st, handled, moved, false) = r := by simpa using h
    exact phasePres_refl _
  · rw [if_neg hmem] at h
    rcases hagv : st.agvs.get? i with _ | agv
    · rw [hagv] at h; simp at h
    · rw [hagv] at h
      simp only [Option.bind_eq_bind, Option.some_bind] at h
      by_cases hload : agv.is_loaded ≠ is_loaded
      · rw [if_pos hload] at h
        obtain rfl : (st, handled, moved, false) = r := by simpa using h
        exact phasePres_refl _
      · rw [if_neg hload] at h
        rcases hti : resolveBatchTask st is_loaded temp i agv with _ | ti
        · rw [hti] at h; simp at h
        · rw [hti] at h
          simp only [Option.some_bind] at h
          rcases htask : st.tasks.get? ti with _ | current_task
          · rw [htask] at h; simp at h
          · rw [htask] at h
            simp only [Option.some_bind] at h
            rcases hplan : batchPlanPath st is_loaded i agv current_task with _ | path
            · rw [hplan] at h; simp at h
            · rw [hplan] at h
              simp only [Option.some_bind] at h
              rcases htps : PathPlanning.calculate_path_timing path agv.pitch with _ | tps
              · rw [htps] at h; simp at h
              · rw [htps] at h
                simp only [Option.some_bind] at h
                have hpresMid : PhasePres st
                    { st with agvs :=
                        st.agvs.set i { agv with path_time_points := tps } } :=
                  phasePres_set_agv hagv rfl
                by_cases hshort : tps.length < 2
                · rw [if_pos hshort] at h
                  obtain rfl : _ = r := by exact (by simpa using h : _ = r)
                  exact hpresMid
                · rw [if_neg hshort] at h
                  rcases hp1 : tps.get? 1 with _ | p1
                  · rw [hp1] at h; simp at h
                  · rw [hp1] at h
                    simp only [Option.some_bind] at h
                    rcases hexp : agv.position.get_pitch_to_neighbour p1.position
                        with _ | expd
                    · rw [hexp] at h; simp at h
                    · rw [hexp] at h
                      simp only [Option.some_bind] at h
                      by_cases hpdiff : expd ≠ agv.pitch
                      · rw [if_pos hpdiff] at h
                        obtain rfl : _ = r := by exact (by simpa using h : _ = r)
                        exact hpresMid
                      · rw [if_neg hpdiff] at h
                        rcases hconf : checkMovedConflict
                            { st with agvs :=
                              st.agvs.set i { agv with path_time_points := tps } }
                            { agv with path_time_points := tps } current_task moved
                            with _ | conflict
                        · rw [hconf] at h; simp at h
                        · rw [hconf] at h
                          simp only [Option.some_bind] at h
                          cases conflict with
                          | some d =>
                            dsimp only at h
                            obtain rfl : _ = r := by exact (by simpa using h : _ = r)
                            exact phasePres_set_agv hagv rfl
                          | none =>
                            dsimp only at h
                            have hlen : ({ agv with path_time_points := tps } :
                                Agv).path_time_points.length > 1 := by
                              simp only
                              omega
                            rw [Agv.move, if_pos hlen] at h
                            simp only [Option.bind_eq_bind] at h
                            rw [show ({ agv with path_time_points := tps } :
                                Agv).path_time_points.get? 1 = some p1 from hp1] at h
                            simp only [Option.some_bind, Option.pure_def,
                              Option.some.injEq] at h
                            obtain rfl : _ = r := h
                            refine phasePres_trans hpresMid (phasePres_move_set ?_)
                            intro g
                            have hposEq : positionsOf
                                { st with agvs :=
                                  st.agvs.set i { agv with path_time_points := tps } } =
                                positionsOf st := by
                              apply map_set_same Agv.position hagv
                              rfl
                            have hp1path : path.get? 1 = some p1.position := by
                              have hmap := timing_positions htps
                              rw [← hmap, List.get?_eq_getElem?, List.getElem?_map,
                                ← List.get?_eq_getElem?, hp1]
                              rfl
                            have hEnds2 : EndsInFixed st := g.2
                            have hsafe0 := batchPlanPath_safe hplan hEnds2
                              (List.get?_mem htask) hp1path
                            exact safe_transfer hposEq hsafe0

lemma batchPass_pres {is_loaded : Bool} {temp : List (Nat × Nat)} {candidates : List Nat}
    {st0 : SchedState} {h0 : List Nat} {m0 : List MovedItem}
    {r : SchedState × List Nat × List MovedItem × Bool}
    (h : batchPass is_loaded temp candidates st0 h0 m0 = some r) :
    PhasePres st0 r.1 := by
  rw [batchPass] at h
  refine foldlM_phasePres Prod.fst _ _ _ _ ?_ h
  intro s x s2 _ hf
  simp only [Option.bind_eq_bind, Option.bind_eq_some] at hf
  rcases hf with ⟨r2, hr2, hpure⟩
  obtain rfl : (r2.1, r2.2.1, r2.2.2.1, s.2.2.2 || r2.2.2.2) = s2 := by simpa using hpure
  have h3 := batchTryAgv_pres hr2
  exact h3

lemma batchLoop_pres {is_loaded : Bool} {temp : List (Nat × Nat)} {candidates : List Nat} :
    ∀ {fuel : Nat} {st : SchedState} {handled : List Nat} {moved : List MovedItem}
      {r : SchedState × List Nat},
    batchLoop is_loaded temp candidates fuel st handled moved = some r →
    PhasePres st r.1 := by
  intro fuel
  induction fuel with
  | zero =>
    intro st handled moved r h
    obtain rfl : (st, handled) = r := by simpa [batchLoop] using h
    exact phasePres_refl _
  | succ n ih =>
    intro st handled moved r h
    rw [batchLoop] at h
    simp only [Option.bind_eq_bind, Option.bind_eq_some] at h
    rcases h with ⟨r2, hr2, h⟩
    split_ifs at h
    · exact phasePres_trans (batchPass_pres hr2) (ih h)
    · obtain rfl : (r2.1, r2.2.1) = r := by simpa using h
      exact batchPass_pres hr2

lemma batch_move_agvs_pres {st : SchedState} {handled candidates : List Nat}
    {is_loaded : Bool} {temp : List (Nat × Nat)} {r : SchedState × List Nat}
    (h : batch_move_agvs st handled candidates is_loaded temp = some r) :
    PhasePres st r.1 := by
  rw [batch_move_agvs] at h
  exact batchLoop_pres h

lemma assignTasks_pres :
    ∀ (pend : List Nat) {st : SchedState} {idle : List Nat} {temp : List (Nat × Nat)}
      {r : SchedState × List (Nat × Nat)},
    assignTasks st pend idle temp = some r → PhasePres st r.1 := by
  intro pend
  induction pend with
  | nil =>
    intro st idle temp r h
    obtain rfl : (st, temp) = r := by simpa [assignTasks] using h
    exact phasePres_refl _
  | cons ti rest ih =>
    intro st idle temp r h
    cases idle with
    | nil =>
      obtain rfl : (st, temp) = r := by simpa [assignTasks] using h
      exact phasePres_refl _
    | cons idle0 idle1 =>
      rw [assignTasks] at h
      · rcases htask : st.tasks.get? ti with _ | task
        · rw [htask] at h; simp at h
        · rw [htask] at h
          simp only [Option.bind_eq_bind, Option.some_bind, Option.bind_eq_some] at h
          rcases h with ⟨options, _, h⟩
          rcases hsorted : stableSort
                (fun a b => optionKeyLe (assignmentKey a) (assignmentKey b)) options
                with _ | ⟨best, restOpts⟩
          · rw [hsorted] at h
            exact ih h
          · rw [hsorted] at h
            dsimp only at h
            rcases hbest : st.agvs.get? best.1 with _ | agv
            · rw [hbest] at h; simp at h
            · rw [hbest] at h
              simp only [Option.some_bind] at h
              refine phasePres_trans ?_ (ih h)
              exact phasePres_set_agv hbest rfl
      · simp

lemma phaseMoveIdle_pres {st : SchedState} {handled : List Nat}
    {temp : List (Nat × Nat)} {r : SchedState × List Nat}
    (h : phaseMoveIdle st handled temp = some r) : PhasePres st r.1 := by
  rw [phaseMoveIdle] at h
  simp only [Option.bind_eq_bind, Option.bind_eq_some] at h
  rcases h with ⟨turns, _, moves, _, st2, hst2, hbatch⟩
  refine phasePres_trans ?_ (batch_move_agvs_pres hbatch)
  refine foldlM_phasePres id _ _ _ _ ?_ hst2
  intro s x s3 _ hf
  rcases hagv : s.agvs.get? x with _ | agv
  · rw [hagv] at hf; simp at hf
  · rw [hagv] at hf
    simp only [Option.bind_eq_bind, Option.some_bind] at hf
    rcases hta : agv.turn_auto with _ | agv2
    · rw [hta] at hf; simp at hf
    · rw [hta] at hf
      obtain rfl : _ = s3 := by simpa using hf
      exact phasePres_set_agv hagv (turn_auto_position hta)

lemma should_move_len {agv : Agv} (h : agv.should_move = some true) :
    agv.path_time_points.length > 1 := by
  rw [Agv.should_move] at h
  split_ifs at h with hlen
  · exact hlen
  · simp at h

lemma parkOne_pres {st : SchedState} {i : Nat} {st2 : SchedState}
    (h : parkOne st i = some st2) : PhasePres st st2 := by
  rw [parkOne] at h
  rcases hagv : st.agvs.get? i with _ | agv
  · rw [hagv] at h; simp at h
  · rw [hagv] at h
    simp only [Option.bind_eq_bind, Option.some_bind] at h
    rcases hmin : minByDistance agv.position (parkPoints st agv) with _ | goal
    · rw [hmin] at h
      obtain rfl : st = st2 := by simpa using h
      exact phasePres_refl _
    · rw [hmin] at h
      dsimp only at h
      rcases htps : PathPlanning.calculate_path_timing
          (PathPlanning.a_star_with_orientation agv.position goal agv.pitch
            (build_obstacles st (getObstacles st i agv)) none) agv.pitch with _ | tps
      · rw [htps] at h; simp at h
      · rw [htps] at h
        simp only [Option.some_bind] at h
        rcases hsm : ({ agv with path_time_points := tps } : Agv).should_move
            with _ | sm
        · rw [hsm] at h; simp at h
        · rw [hsm] at h
          simp only [Option.some_bind] at h
          split_ifs at h with hsmt
          · -- move branch
            subst hsmt
            have hlen := should_move_len hsm
            simp only at hlen
            rw [Agv.move, if_pos hlen] at h
            simp only [Option.bind_eq_bind] at h
            rcases hp1 : tps.get? 1 with _ | p1
            · rw [show ({ agv with path_time_points := tps } :
                  Agv).path_time_points.get? 1 = none from hp1] at h
              simp at h
            · rw [show ({ agv with path_time_points := tps } :
                  Agv).path_time_points.get? 1 = some p1 from hp1] at h
              simp only [Option.some_bind, Option.pure_def, Option.some.injEq] at h
              rw [← h]
              refine phasePres_move_set ?_
              intro g
              have hp1path : (PathPlanning.a_star_with_orientation agv.position goal
                  agv.pitch (build_obstacles st (getObstacles st i agv)) none).get? 1 =
                  some p1.position := by
                have hmap := timing_positions htps
                rw [← hmap, List.get?_eq_getElem?, List.getElem?_map,
                  ← List.get?_eq_getElem?, hp1]
                rfl
              refine planned_move_safe ?_ rfl hp1path
              intro q hq hocc
              rw [build_obstacles]
              exact List.mem_append_right _ (occupied_mem_getObstacles st i agv hq hocc)
          · rcases hstt : ({ agv with path_time_points := tps } : Agv).should_turn
                with _ | stt
            · rw [hstt] at h; simp at h
            · rw [hstt] at h
              simp only [Option.some_bind] at h
              split_ifs at h
              · rcases hta : ({ agv with path_time_points := tps } : Agv).turn_auto
                    with _ | agv3
                · rw [hta] at h; simp at h
                · rw [hta] at h
                  obtain rfl : _ = st2 := by simpa using h
                  exact phasePres_set_agv hagv ((turn_auto_position hta).trans rfl)
              · obtain rfl : _ = st2 := by simpa using h
                exact phasePres_set_agv hagv rfl

lemma parkIdleAgvs_pres {st0 : SchedState} {handled : List Nat} {st1 : SchedState}
    (h : parkIdleAgvs st0 handled = some st1) : PhasePres st0 st1 := by
  rw [parkIdleAgvs] at h
  refine foldlM_phasePres id _ _ _ _ ?_ h
  intro s x s2 _ hf
  exact parkOne_pres hf

lemma recorderAdd_pres {st : SchedState} {ts : Int} {st2 : SchedState}
    (h : recorderAdd st ts = some st2) : PhasePres st st2 := by
  rw [recorderAdd] at h
  simp only [Option.bind_eq_bind, Option.bind_eq_some] at h
  rcases h with ⟨recs, _, hpure⟩
  obtain rfl : _ = st2 := by simpa using hpure
  exact phasePres_of_eq rfl rfl rfl rfl

/-! ## One full tick -/

lemma processBody_pres {st0 st1 : SchedState} (h : processBody st0 = some st1) :
    PhasePres { st0 with timestamp := st0.timestamp + 1 } st1 := by
  rw [processBody] at h
  simp only [Option.bind_eq_bind, Option.bind_eq_some] at h
  rcases h with ⟨⟨s1, hd1⟩, hu, ⟨s2, hd2⟩, hl, ⟨s3, hd3⟩, hb, ⟨s4, hd4⟩, ht,
    ⟨s5, temp⟩, ha, ⟨s6, hd6⟩, hm, htail⟩
  refine phasePres_trans (phaseUnload_pres hu) ?_
  refine phasePres_trans (phaseLoad_pres hl) ?_
  refine phasePres_trans (batch_move_agvs_pres hb) ?_
  refine phasePres_trans (phaseTurnLoaded_pres ht) ?_
  refine phasePres_trans (assignTasks_pres _ ha) ?_
  refine phasePres_trans (phaseMoveIdle_pres hm) ?_
  split_ifs at htail
  · simp only [Option.bind_eq_bind, Option.bind_eq_some] at htail
    rcases htail with ⟨s7, hp, hrec⟩
    exact phasePres_trans (parkIdleAgvs_pres hp) (recorderAdd_pres hrec)
  · simp only [Option.bind_eq_bind, Option.pure_def, Option.some_bind] at htail
    exact recorderAdd_pres htail

lemma processBody_timestamp {st0 st1 : SchedState} (h : processBody st0 = some st1) :
    st1.timestamp = st0.timestamp + 1 :=
  (processBody_pres h).1.2.2.2

lemma processBody_good {st0 st1 : SchedState} (h : processBody st0 = some st1)
    (hg : GoodState st0) : GoodState st1 :=
  (processBody_pres h).2 hg

lemma process_ok {st st2 : SchedState} (h : process st = Except.ok st2) :
    st.timestamp ≤ MAX_TIMESTAMP ∧ processBody st = some st2 := by
  rw [process] at h
  split_ifs at h with hg
  refine ⟨by omega, ?_⟩
  rcases hb : processBody st with _ | s
  · rw [hb] at h
    dsimp only at h
    exact absurd h (fun hx => Except.noConfusion hx)
  · rw [hb] at h
    dsimp only at h
    exact congrArg some (Except.ok.inj h)

lemma process_deadlock_iff (st : SchedState) :
    process st = Except.error SchedErr.deadlock ↔ MAX_TIMESTAMP < st.timestamp := by
  rw [process]
  split_ifs with hg
  · simpa using hg
  · constructor
    · intro h
      rcases hb : processBody st with _ | s
      · rw [hb] at h
        dsimp only at h
        exact absurd (Except.error.inj h) (by decide)
      · rw [hb] at h
        dsimp only at h
        exact Except.noConfusion h
    · intro h; exact absurd h hg

lemma process_to_complete_deadlock : ∀ (fuel : Nat) (st : SchedState) (t : Int),
    st.timestamp ≤ MAX_TIMESTAMP + 1 →
    process_to_complete fuel st = Except.error (SchedErr.deadlock, t) →
    t = MAX_TIMESTAMP + 1 := by
  intro fuel
  induction fuel with
  | zero =>
    intro st t hts h
    rw [process_to_complete] at h
    have h1 : SchedErr.internalError = SchedErr.deadlock :=
      congrArg Prod.fst (Except.error.inj h)
    exact absurd h1 (by decide)
  | succ n ih =>
    intro st t hts h
    rw [process_to_complete] at h
    split_ifs at h with hc
    rcases hp : process st with e | st2
    · rw [hp] at h
      dsimp only at h
      have he := Except.error.inj h
      obtain ⟨rfl, rfl⟩ : e = SchedErr.deadlock ∧ st.timestamp = t :=
        ⟨congrArg Prod.fst he, congrArg Prod.snd he⟩
      have hgt := (process_deadlock_iff st).mp hp
      omega
    · rw [hp] at h
      dsimp only at h
      have hok := process_ok hp
      have hts2 : st2.timestamp = st.timestamp + 1 := processBody_timestamp hok.2
      exact ih st2 t (by omega) h

/-- A state already past the deadlock bound when a tick starts. -/
def c9GuardSt : SchedState :=
  { tasks := [], agvs := [], fixed_map_obstacles := [], trajectory_records := [],
    timestamp := 401 }

/-- A context with one task and no AGV: no tick can ever complete the task,
so the run is driven into the deadlock guard. -/
def c9RunSt : SchedState :=
  { tasks := [mkTaskEx ⟨"T1", "S1", "E1", TaskPriority.NORMAL, none⟩ ⟨3, 3⟩ ⟨7, 3⟩],
    agvs := [], fixed_map_obstacles := [⟨7, 3⟩], trajectory_records := [],
    timestamp := 0 }

/-- C9: `SchedulerService.process` fails with the deadlock error exactly when
the timestamp exceeds 400 on entry (the guard precedes every mutation of the
tick, and an erroring call returns no successor state); a successful tick
advances the timestamp by exactly one, so a run started at timestamp 0 that
never completes its tasks fails with the deadlock error with the clock at
401. -/
theorem agv_c9 :
    (∀ st : SchedState, process st = Except.error SchedErr.deadlock ↔
      MAX_TIMESTAMP < st.timestamp) ∧
    (∀ st st2 : SchedState, process st = Except.ok st2 →
      st2.timestamp = st.timestamp + 1) ∧
    (∀ (fuel : Nat) (st : SchedState) (t : Int), st.timestamp = 0 →
      process_to_complete fuel st = Except.error (SchedErr.deadlock, t) →
      t = 401) := by
  refine ⟨process_deadlock_iff,
    fun st st2 h => processBody_timestamp (process_ok h).2, ?_⟩
  intro fuel st t h0 h
  have ht := process_to_complete_deadlock fuel st t (by rw [h0]; decide) h
  rw [ht]; decide

set_option maxRecDepth 100000 in
/-- Witness for C9: a state with the clock at 401 deadlocks at once, and the
no-AGV run from timestamp 0 reaches the deadlock error exactly at 401. -/
theorem agv_c9_witness :
    process c9GuardSt = Except.error SchedErr.deadlock ∧
    process_to_complete 450 c9RunSt = Except.error (SchedErr.deadlock, 401) ∧
    (401 : Int) = 401 :=
  ⟨(agv_c9.1 c9GuardSt).mpr (by decide), rfl, agv_c9.2.2 450 c9RunSt 401 rfl rfl⟩

lemma mapM_mem_option {α β : Type} {f : α → Option β} :
    ∀ {l : List α} {l2 : List β}, l.mapM f = some l2 →
      ∀ b ∈ l2, ∃ a ∈ l, f a = some b := by
  intro l
  induction l with
  | nil =>
    intro l2 h b hb
    rw [List.mapM_nil] at h
    obtain rfl : ([] : List β) = l2 := by simpa using h
    simp at hb
  | cons a as ih =>
    intro l2 h b hb
    rw [List.mapM_cons] at h
    simp only [Option.bind_eq_bind, Option.bind_eq_some, Option.pure_def,
      Option.some.injEq] at h
    rcases h with ⟨b0, hb0, bs, hbs, rfl⟩
    rcases List.mem_cons.mp hb with rfl | hmem
    · exact ⟨a, List.mem_cons_self a as, hb0⟩
    · rcases ih hbs b hmem with ⟨a2, ha2, hfa2⟩
      exact ⟨a2, List.mem_cons_of_mem a ha2, hfa2⟩

lemma getPositionByName_mem {me : List MapElement} {t : MapElementType} {name : String}
    {p : PointEx} (h : getPositionByName me t name = some p) :
    ∃ e ∈ me, e.type = t ∧ p = PointEx.mk e.x e.y := by
  rw [getPositionByName] at h
  rcases hf : me.find? (fun e => e.type == t && e.name == name) with _ | e
  · rw [hf] at h; simp at h
  · rw [hf] at h
    simp only [Option.map_some'] at h
    have he := List.find?_some hf
    have hmem := List.mem_of_find?_eq_some hf
    simp only [Bool.and_eq_true, beq_iff_eq] at he
    exact ⟨e, hmem, he.1, (Option.some.inj h).symm⟩

lemma mkContext_endsInFixed {me : List MapElement} {trs : List TaskRecord}
    {st : SchedState} (h : mkContext me trs = some st) : EndsInFixed st := by
  rw [mkContext] at h
  simp only [Option.bind_eq_bind, Option.bind_eq_some] at h
  rcases h with ⟨tasks, htasks, agvs, hagvs, mnx, hmnx, mxx, hmxx, mny, hmny, mxy, hmxy, hrec⟩
  have hpres := recorderAdd_pres hrec
  refine endsInFixed_of_stepPres hpres.1 ?_
  intro tk htk
  rcases mapM_mem_option htasks tk htk with ⟨tr, _, htr⟩
  simp only [Option.bind_eq_bind, Option.bind_eq_some, Option.pure_def,
    Option.some.injEq] at htr
  rcases htr with ⟨sp, hsp, ep, hep, hpure⟩
  obtain rfl : mkTaskEx tr sp ep = tk := hpure
  rcases getPositionByName_mem hep with ⟨e, hemem, hetype, rfl⟩
  show PointEx.mk e.x e.y ∈ _
  refine List.mem_append_left _ ?_
  refine List.mem_append_left _ ?_
  refine List.mem_map.mpr ⟨e, ?_, rfl⟩
  refine List.mem_filter.mpr ⟨hemem, ?_⟩
  simp [hetype]

lemma distinctPositions_of_nodup {st : SchedState}
    (h : (st.agvs.map (fun a => a.position)).Nodup) : DistinctPositions st := by
  intro i j hij a b ha hb hab
  have hma : (st.agvs.map (fun x => x.position)).get? i = some a.position := by
    rw [List.get?_eq_getElem?, List.getElem?_map, ← List.get?_eq_getElem?, ha]; rfl
  have hmb : (st.agvs.map (fun x => x.position)).get? j = some b.position := by
    rw [List.get?_eq_getElem?, List.getElem?_map, ← List.get?_eq_getElem?, hb]; rfl
  have hlt : i < (st.agvs.map (fun x => x.position)).length := by
    rcases List.get?_eq_some.mp hma with ⟨hl, _⟩
    exact hl
  exact hij (List.getElem?_inj hlt h (by
    rw [← List.get?_eq_getElem?, ← List.get?_eq_getElem?, hma, hmb, hab]))

lemma processNIter_good : ∀ (n : Nat) {st st2 : SchedState},
    processNIter n st = Except.ok st2 → GoodState st → GoodState st2 := by
  intro n
  induction n with
  | zero =>
    intro st st2 h hg
    rw [processNIter] at h
    obtain rfl : st = st2 := Except.ok.inj h
    exact hg
  | succ m ih =>
    intro st st2 h hg
    rw [processNIter] at h
    rcases hp : process st with e | s
    · rw [hp] at h
      exact absurd h (fun hx => Except.noConfusion hx)
    · rw [hp] at h
      dsimp only at h
      exact ih h (processBody_good (process_ok hp).2 hg)

/-- C1: from a constructed context whose AGVs start on pairwise-distinct
cells, every sequence of successful `process` calls keeps the positions of
any two distinct AGVs different. -/
theorem agv_c1 (me : List MapElement) (trs : List TaskRecord)
    (st0 st2 : SchedState) (n : Nat)
    (hctx : mkContext me trs = some st0)
    (hd : DistinctPositions st0)
    (hrun : processNIter n st0 = Except.ok st2) :
    DistinctPositions st2 :=
  (processNIter_good n hrun ⟨hd, mkContext_endsInFixed hctx⟩).1

/-- C1 witness map: one start point, one end point, one AGV. -/
def c1Map : List MapElement :=
  [ ⟨.START_POINT, "S1", 4, 2, none⟩,
    ⟨.END_POINT, "E1", 9, 2, none⟩,
    ⟨.AGV, "A1", 6, 2, some Direction.LEFT⟩ ]

/-- C1 witness task table. -/
def c1Tasks : List TaskRecord := [⟨"T1", "S1", "E1", TaskPriority.NORMAL, none⟩]

/-- The context built from the C1 witness map. -/
def c1St0 : SchedState := (mkContext c1Map c1Tasks).getD ⟨[], [], [], [], 0⟩

/-- The C1 witness context after one tick. -/
def c1St1 : SchedState := (processNIter 1 c1St0).toOption.getD ⟨[], [], [], [], 0⟩

set_option maxRecDepth 100000 in
/-- Witness for C1: the concrete one-AGV context is built, starts distinct,
runs one successful tick, and stays distinct. -/
theorem agv_c1_witness :
    mkContext c1Map c1Tasks = some c1St0 ∧
    processNIter 1 c1St0 = Except.ok c1St1 ∧
    DistinctPositions c1St1 :=
  ⟨rfl, rfl,
   agv_c1 c1Map c1Tasks c1St0 c1St1 1 rfl (distinctPositions_of_nodup (by decide)) rfl⟩

lemma crossCond_unique {d d' : Direction} {agv : Agv} {ct : TaskEx}
    {ma ma' : Agv} {mpos mpos' : PointEx} {mt mt' : TaskEx}
    (h : crossCond d agv ct ma mpos mt) (h' : crossCond d' agv ct ma' mpos' mt') :
    d = d' := by
  cases d <;> cases d' <;>
    first
      | rfl
      | (dsimp only [crossCond] at h h'
         obtain ⟨hp, -, -, hy, -⟩ := h
         obtain ⟨hp', -, -, hy', -⟩ := h'
         first
           | omega
           | (rcases hp with hp | hp <;> rcases hp' with hp' | hp' <;>
              rw [hp] at hp' <;> exact Direction.noConfusion hp'))

lemma checkMovedConflict_cross {st : SchedState} {agv : Agv} {ct : TaskEx}
    {d : Direction} :
    ∀ {moved : List MovedItem},
    (∀ it ∈ moved, (st.agvs.get? it.1).isSome ∧ (st.tasks.get? it.2.2).isSome) →
    (∃ it ∈ moved, ∃ ma mt, st.agvs.get? it.1 = some ma ∧
      st.tasks.get? it.2.2 = some mt ∧ ma.pitch = agv.pitch ∧
      crossCond d agv ct ma it.2.1 mt) →
    checkMovedConflict st agv ct moved = some (some d) := by
  intro moved
  induction moved with
  | nil =>
    intro _ hm
    rcases hm with ⟨it, hit, _⟩
    simp at hit
  | cons item rest ih =>
    intro hlk hm
    obtain ⟨ha, ht⟩ := hlk item (List.mem_cons_self _ _)
    rcases hma : st.agvs.get? item.1 with _ | ma
    · rw [hma] at ha; simp at ha
    · rcases hmt : st.tasks.get? item.2.2 with _ | mt
      · rw [hmt] at ht; simp at ht
      · have hlk' : ∀ it ∈ rest, (st.agvs.get? it.1).isSome ∧
            (st.tasks.get? it.2.2).isSome :=
          fun it h => hlk it (List.mem_cons_of_mem _ h)
        rw [checkMovedConflict, hma]
        simp only [Option.bind_eq_bind, Option.some_bind]
        rw [hmt]
        simp only [Option.some_bind]
        rcases hm with ⟨it, hit, ma2, mt2, hma2, hmt2, hpitch2, hcross2⟩
        by_cases hpeq : ma.pitch = agv.pitch
        · rw [if_pos hpeq]
          by_cases h1 : crossCond .UP agv ct ma item.2.1 mt
          · rw [if_pos h1, ← crossCond_unique h1 hcross2]; rfl
          · rw [if_neg h1]
            by_cases h2 : crossCond .DOWN agv ct ma item.2.1 mt
            · rw [if_pos h2, ← crossCond_unique h2 hcross2]; rfl
            · rw [if_neg h2]
              by_cases h3 : crossCond .LEFT agv ct ma item.2.1 mt
              · rw [if_pos h3, ← crossCond_unique h3 hcross2]; rfl
              · rw [if_neg h3]
                by_cases h4 : crossCond .RIGHT agv ct ma item.2.1 mt
                · rw [if_pos h4, ← crossCond_unique h4 hcross2]; rfl
                · rw [if_neg h4]
                  rcases List.mem_cons.mp hit with rfl | hit'
                  · rw [hma] at hma2
                    obtain rfl : ma2 = ma := (Option.some.inj hma2).symm
                    rw [hmt] at hmt2
                    obtain rfl : mt2 = mt := (Option.some.inj hmt2).symm
                    cases d with
                    | UP => exact absurd hcross2 h1
                    | DOWN => exact absurd hcross2 h2
                    | LEFT => exact absurd hcross2 h3
                    | RIGHT => exact absurd hcross2 h4
                  · exact ih hlk' ⟨it, hit', ma2, mt2, hma2, hmt2, hpitch2, hcross2⟩
        · rw [if_neg hpeq]
          rcases List.mem_cons.mp hit with rfl | hit'
          · rw [hma] at hma2
            obtain rfl : ma2 = ma := (Option.some.inj hma2).symm
            exact absurd hpitch2 hpeq
          · exact ih hlk' ⟨it, hit', ma2, mt2, hma2, hmt2, hpitch2, hcross2⟩

end AgvMonitor

namespace AgvMonitor

lemma get?_set_ne {α : Type} {l : List α} {i j : Nat} {a : α} (h : i ≠ j) :
    (l.set i a).get? j = l.get? j := by
  rw [List.get?_eq_getElem?, List.get?_eq_getElem?, List.getElem?_set_ne h]

/-- C4: in the batch-move loop, a candidate AGV whose replanned path's
first step matches its pitch, but for which some previously-moved AGV of
the same pitch satisfies the cross-lock condition for direction `d`
(`crossCond`, the four direction-indexed geometric conditions of the
source), turns in place to `d` instead of moving: its position is
unchanged, its stored path is cleared, it is appended to the handled list,
and the pass is marked productive. -/
theorem agv_c4 (is_loaded : Bool) (temp : List (Nat × Nat)) (i : Nat)
    (st : SchedState) (handled : List Nat) (moved : List MovedItem)
    (agv : Agv) (ti : Nat) (task : TaskEx) (path : List PointEx)
    (tps : List PathTimePoint) (p1 : PathTimePoint) (d : Direction)
    (hni : i ∉ handled)
    (hagv : st.agvs.get? i = some agv)
    (hload : agv.is_loaded = is_loaded)
    (hti : resolveBatchTask st is_loaded temp i agv = some ti)
    (htask : st.tasks.get? ti = some task)
    (hpath : batchPlanPath st is_loaded i agv task = some path)
    (htps : PathPlanning.calculate_path_timing path agv.pitch = some tps)
    (hlen : 2 ≤ tps.length)
    (hp1 : tps.get? 1 = some p1)
    (hpitch : agv.position.get_pitch_to_neighbour p1.position = some agv.pitch)
    (hnotin : ∀ it ∈ moved, it.1 ≠ i)
    (hlk : ∀ it ∈ moved, (st.agvs.get? it.1).isSome ∧ (st.tasks.get? it.2.2).isSome)
    (hwit : ∃ it ∈ moved, ∃ ma mt, st.agvs.get? it.1 = some ma ∧
       st.tasks.get? it.2.2 = some mt ∧ ma.pitch = agv.pitch ∧
       crossCond d agv task ma it.2.1 mt) :
    ∃ agv2 st2,
      agv2.position = agv.position ∧ agv2.pitch = d ∧ agv2.path_time_points = [] ∧
      st2.agvs = st.agvs.set i agv2 ∧ st2.tasks = st.tasks ∧
      batchTryAgv is_loaded temp i st handled moved =
        some (st2, handled ++ [i], moved, true) := by
  have hscan : checkMovedConflict
      { st with agvs := st.agvs.set i { agv with path_time_points := tps } }
      { agv with path_time_points := tps } task moved = some (some d) := by
    refine checkMovedConflict_cross ?_ ?_
    · intro it hit
      have hx := hlk it hit
      constructor
      · show ((st.agvs.set i _).get? it.1).isSome = true
        rw [get?_set_ne (Ne.symm (hnotin it hit))]
        exact hx.1
      · exact hx.2
    · rcases hwit with ⟨it, hit, ma, mt, hma, hmt, hp, hc⟩
      refine ⟨it, hit, ma, mt, ?_, hmt, hp, hc⟩
      show (st.agvs.set i _).get? it.1 = some ma
      rw [get?_set_ne (Ne.symm (hnotin it hit))]
      exact hma
  let agv1 : Agv := { agv with path_time_points := tps }
  let agv2 : Agv := { agv with pitch := d, path_time_points := [] }
  refine ⟨agv2, { st with agvs := (st.agvs.set i agv1).set i agv2 },
    rfl, rfl, rfl, List.set_set _ _ _ _, rfl, ?_⟩
  rw [batchTryAgv]
  rw [if_neg hni]
  simp only [Option.bind_eq_bind]
  rw [hagv]
  simp only [Option.some_bind]
  rw [if_neg (not_not_intro hload)]
  rw [hti]
  simp only [Option.some_bind]
  rw [htask]
  simp only [Option.some_bind]
  rw [hpath]
  simp only [Option.some_bind]
  rw [htps]
  simp only [Option.some_bind]
  rw [if_neg (by omega : ¬ tps.length < 2)]
  rw [hp1]
  simp only [Option.some_bind]
  rw [hpitch]
  simp only [Option.some_bind]
  rw [if_neg (not_not_intro rfl)]
  rw [hscan]
  simp only [Option.some_bind]
  rfl

/-- C4 witness: the loaded candidate AGV. -/
def c4AgvA : Agv := ⟨"A", ⟨5, 5⟩, Direction.RIGHT, true, some 0, []⟩

/-- C4 witness: the previously-moved AGV. -/
def c4AgvM : Agv := ⟨"M", ⟨7, 5⟩, Direction.RIGHT, true, some 1, []⟩

/-- C4 witness: the candidate's task, delivering to `(6, 6)`. -/
def c4TaskA : TaskEx := mkTaskEx ⟨"T0", "S0", "E0", TaskPriority.NORMAL, none⟩ ⟨2, 2⟩ ⟨6, 6⟩

/-- C4 witness: the moved AGV's task, delivering to `(9, 3)`. -/
def c4TaskM : TaskEx := mkTaskEx ⟨"T1", "S1", "E1", TaskPriority.NORMAL, none⟩ ⟨2, 4⟩ ⟨9, 3⟩

/-- C4 witness state. -/
def c4St : SchedState :=
  { tasks := [c4TaskA, c4TaskM], agvs := [c4AgvA, c4AgvM],
    fixed_map_obstacles := [⟨6, 6⟩, ⟨5, 6⟩], trajectory_records := [], timestamp := 0 }

/-- C4 witness moved-items list: AGV 1 moved away from `(5, 6)`, the cell
just above the candidate. -/
def c4Moved : List MovedItem := [(1, ⟨5, 6⟩, 1)]

set_option maxRecDepth 100000 in
/-- Witness for C4: the concrete cross-lock scenario turns the candidate UP
in place. -/
theorem agv_c4_witness :
    ∃ agv2 st2,
      agv2.position = c4AgvA.position ∧ agv2.pitch = Direction.UP ∧
      agv2.path_time_points = [] ∧
      st2.agvs = c4St.agvs.set 0 agv2 ∧ st2.tasks = c4St.tasks ∧
      batchTryAgv true [] 0 c4St [] c4Moved =
        some (st2, [0], c4Moved, true) :=
  agv_c4 true [] 0 c4St [] c4Moved c4AgvA 0 c4TaskA
    [⟨5, 5⟩, ⟨6, 5⟩, ⟨6, 6⟩]
    [⟨⟨5, 5⟩, 0⟩, ⟨⟨6, 5⟩, 1⟩, ⟨⟨6, 6⟩, 3⟩] ⟨⟨6, 5⟩, 1⟩ Direction.UP
    (by decide) rfl rfl rfl rfl (by decide) (by decide) (by decide) rfl (by decide)
    (by decide) (by decide)
    ⟨(1, ⟨5, 6⟩, 1), by decide, c4AgvM, c4TaskM, rfl, rfl, rfl, by decide⟩

lemma mapM_eq_map_of {α β : Type} (f : α → Option β) (g : α → β) :
    ∀ (l : List α), (∀ a ∈ l, f a = some (g a)) → l.mapM f = some (l.map g) := by
  intro l
  induction l with
  | nil => intro _; rfl
  | cons a as ih =>
    intro h
    rw [List.mapM_cons, h a (List.mem_cons_self _ _),
      ih (fun x hx => h x (List.mem_cons_of_mem _ hx))]
    rfl

lemma stableSort_of_all {α : Type} (le : α → α → Bool) :
    ∀ (l : List α), (∀ a ∈ l, ∀ b ∈ l, le a b = true) → stableSort le l = l := by
  intro l
  induction l with
  | nil => intro _; rfl
  | cons a as ih =>
    intro h
    rw [stableSort, ih (fun x hx y hy =>
      h x (List.mem_cons_of_mem _ hx) y (List.mem_cons_of_mem _ hy))]
    cases as with
    | nil => rfl
    | cons b bs =>
      rw [insertSorted, if_pos (h a (List.mem_cons_self _ _) b
        (List.mem_cons_of_mem _ (List.mem_cons_self _ _)))]

/-- C10: in the idle-assignment phase, when every idle AGV's planned path
to the pending task's pickup is empty, the task still consumes an AGV: the
first idle AGV (list order is preserved by the stable sort when every key
is `float('inf')`) is stored with an empty `path_time_points`, reserved in
the temporary assignment table, and removed from the idle pool for the
remaining tasks of the tick, while the task table — hence the task's `agv`
reference, which stays `None` — is untouched. -/
theorem agv_c10 (st : SchedState) (ti i0 : Nat) (task : TaskEx)
    (rest irest : List Nat) (temp : List (Nat × Nat)) (agv0 : Agv)
    (htask : st.tasks.get? ti = some task)
    (hagv0 : st.agvs.get? i0 = some agv0)
    (hplans : ∀ j ∈ i0 :: irest, ∃ agv, st.agvs.get? j = some agv ∧
      PathPlanning.calculate_path_timing
        (calc_path_to_pickup st agv task (getObstacles st j agv)) agv.pitch = some []) :
    ∃ st2, st2.tasks = st.tasks ∧
      st2.agvs = st.agvs.set i0 { agv0 with path_time_points := [] } ∧
      assignTasks st (ti :: rest) (i0 :: irest) temp =
        assignTasks st2 rest irest (temp ++ [(i0, ti)]) := by
  refine ⟨{ st with agvs := st.agvs.set i0 { agv0 with path_time_points := [] } },
    rfl, rfl, ?_⟩
  have hopts : ((i0 :: irest).mapM (fun ai => do
      let agv ← st.agvs.get? ai
      let tps ← PathPlanning.calculate_path_timing
        (calc_path_to_pickup st agv task (getObstacles st ai agv)) agv.pitch
      pure (ai, tps))) =
      some ((i0 :: irest).map (fun ai => (ai, ([] : List PathTimePoint)))) := by
    apply mapM_eq_map_of
    intro a ha
    rcases hplans a ha with ⟨agv, hagv, htiming⟩
    simp only [Option.bind_eq_bind]
    rw [hagv]
    simp only [Option.some_bind]
    rw [htiming]
    rfl
  simp only [Option.bind_eq_bind] at hopts
  rw [assignTasks]
  · rw [htask]
    simp only [Option.bind_eq_bind, Option.some_bind]
    rw [hopts]
    simp only [Option.some_bind]
    rw [stableSort_of_all _ _ ?hall]
    case hall =>
      intro a ha b hb
      rcases List.mem_map.mp ha with ⟨x, _, rfl⟩
      rcases List.mem_map.mp hb with ⟨y, _, rfl⟩
      rfl
    simp only [List.map]
    rw [hagv0]
    simp only [Option.some_bind]
    rw [List.erase_cons_head]
  · simp

/-- C10 witness: an AGV walled in by fixed obstacles on all four sides. -/
def c10Agv : Agv := ⟨"A", ⟨3, 3⟩, Direction.RIGHT, false, none, []⟩

/-- C10 witness task: pickup far from the trapped AGV. -/
def c10Task : TaskEx := mkTaskEx ⟨"T0", "S0", "E0", TaskPriority.NORMAL, none⟩ ⟨8, 3⟩ ⟨12, 3⟩

/-- C10 witness state. -/
def c10St : SchedState :=
  { tasks := [c10Task], agvs := [c10Agv],
    fixed_map_obstacles := [⟨2, 3⟩, ⟨4, 3⟩, ⟨3, 2⟩, ⟨3, 4⟩],
    trajectory_records := [], timestamp := 0 }

set_option maxRecDepth 100000 in
/-- Witness for C10: with the single idle AGV walled in (its plan to the
pickup is empty), the task's assignment step still reserves that AGV with an
empty stored path, removes it from the idle pool, and leaves the task table
unchanged. -/
theorem agv_c10_witness :
    ∃ st2, st2.tasks = c10St.tasks ∧
      st2.agvs = c10St.agvs.set 0 { c10Agv with path_time_points := [] } ∧
      assignTasks c10St [0] [0] [] = assignTasks st2 [] [] [(0, 0)] :=
  agv_c10 c10St 0 0 c10Task [] [] [] c10Agv rfl rfl
    (by
      intro j hj
      obtain rfl : j = 0 := by simpa using hj
      exact ⟨c10Agv, rfl, by decide⟩)

end AgvMonitor
